import Mathlib

/-!
Verification of the i18n merger (src/i18n_merger.py): a shallow embedding of
the tree validator (`BaseMerger._validate_tree`), the deep-merge routine
(`_merge_nested`) and the per-format driver loop (`YamlMerger.merge` /
`JsonMerger.merge` / `JsMerger.merge`), together with theorems about them.

Python values parsed from a localisation file are modelled by `JVal`:
dicts become ordered association lists (Python dicts preserve insertion
order and `d[k] = v` keeps an existing key's position, which `setKey`
mirrors), lists become `List JVal`, strings stay strings, and the
non-translatable scalar types that can appear in a parsed file (ints,
bools, None) get their own constructors so that validation errors can
name the offending Python type. Exceptions raised as
`InvalidTranslationFile(msg)` are modelled by `Except String` carrying
the exact message text; a Python crash that is not an
`InvalidTranslationFile` (such as the `AttributeError` from calling
`.items()` on a non-mapping) is modelled by `Option.none` at the
entry point `mergeTop`.
-/

set_option linter.unusedVariables false
set_option linter.unnecessarySeqFocus false

namespace I18n

/-- A parsed document tree: the dynamic values `_merge_nested` and
`_validate_tree` traverse. -/
inductive JVal : Type where
  | str (s : String)
  | int (n : Int)
  | bool (b : Bool)
  | null
  | obj (kvs : List (String × JVal))
  | arr (items : List JVal)

/-- A Python dict as an insertion-ordered association list. -/
abbrev Obj := List (String × JVal)

/-- Python `type(node).__name__` for the modelled value kinds. -/
def pyType : JVal → String
  | .str _ => "str"
  | .int _ => "int"
  | .bool _ => "bool"
  | .null => "NoneType"
  | .obj _ => "dict"
  | .arr _ => "list"

/-- Python `d.get(key)`: the value of the first (only) entry with this key. -/
def lookup : Obj → String → Option JVal
  | [], _ => none
  | (k, v) :: rest, key => if k = key then some v else lookup rest key

/-- Python `d[key] = v`: replace in place if the key exists, else append. -/
def setKey : Obj → String → JVal → Obj
  | [], key, v => [(key, v)]
  | (k, w) :: rest, key, v =>
      if k = key then (k, v) :: rest else (k, w) :: setKey rest key v

/-- The keys of a dict, in order. -/
def keyList (o : Obj) : List String := o.map Prod.fst

/-- The key set of a dict. -/
def keysF (o : Obj) : Finset String := (keyList o).toFinset

/-- Message of the `InvalidTranslationFile` raised by `_validate_tree`
(line 64 of the source): it names the file and the offending type. -/
def invalidLeafMsg (filename ty : String) : String :=
  filename ++ ": leaf values must be strings, got " ++ ty

/-- Message of the `InvalidTranslationFile` raised at a structural conflict
(lines 91, 102 and 131 of the source): it names the key and the file. -/
def mismatchMsg (key filename : String) : String :=
  "Structure mismatch at key '" ++ key ++ "' between languages (file "
    ++ filename ++ ")"

/-- Message of the `InvalidTranslationFile` raised for a sequence element that
is neither string nor mapping (line 123 of the source). -/
def unsupportedMsg (filename ty key : String) (i : Nat) : String :=
  filename ++ ": unsupported array element type " ++ ty ++ " at key '"
    ++ key ++ "[" ++ toString i ++ "]'"

mutual

/-- `BaseMerger._validate_tree` (source lines 45-66): recurse into mappings
and lists, accept strings, and reject any other node with an
`InvalidTranslationFile` naming the file and the node's type. -/
def validateTree (node : JVal) (filename : String) : Except String Unit :=
  match node with
  | .obj kvs => validateObj kvs filename
  | .arr items => validateItems items filename
  | .str _ => .ok ()
  | v => .error (invalidLeafMsg filename (pyType v))

/-- The `for v in node.values()` loop of `_validate_tree`, in dict order. -/
def validateObj (kvs : Obj) (filename : String) : Except String Unit :=
  match kvs with
  | [] => .ok ()
  | (_, v) :: rest =>
      match validateTree v filename with
      | .error e => .error e
      | .ok () => validateObj rest filename

/-- The `for item in node` loop of `_validate_tree`, in list order. -/
def validateItems (items : List JVal) (filename : String) : Except String Unit :=
  match items with
  | [] => .ok ()
  | v :: rest =>
      match validateTree v filename with
      | .error e => .error e
      | .ok () => validateItems rest filename

end

mutual

/-- The Python types of all invalid leaves of a tree, in traversal order;
`_validate_tree` fails on the first of these. -/
def badTypes : JVal → List String
  | .obj kvs => badTypesObj kvs
  | .arr items => badTypesArr items
  | .str _ => []
  | v => [pyType v]

/-- `badTypes` over a dict's values in order. -/
def badTypesObj : Obj → List String
  | [] => []
  | (_, v) :: rest => badTypes v ++ badTypesObj rest

/-- `badTypes` over a list's elements in order. -/
def badTypesArr : List JVal → List String
  | [] => []
  | v :: rest => badTypes v ++ badTypesArr rest

end

mutual

/-- A tree built from mappings, lists and string leaves only: exactly what
`_validate_tree` accepts. -/
def validV : JVal → Bool
  | .obj kvs => validO kvs
  | .arr items => validA items
  | .str _ => true
  | _ => false

/-- `validV` over a dict's values. -/
def validO : Obj → Bool
  | [] => true
  | (_, v) :: rest => validV v && validO rest

/-- `validV` over a list's elements. -/
def validA : List JVal → Bool
  | [] => true
  | v :: rest => validV v && validA rest

end

mutual

/-- `_merge_nested` (source lines 70-135): fold `incoming` into `base`
pair by pair, in the insertion order of the incoming dict. Mutation of
the Python accumulator is rendered by threading the updated dict. -/
def mergeNested (base : Obj) (incoming : Obj) (lang filename : String) :
    Except String Obj :=
  match incoming with
  | [] => .ok base
  | (key, value) :: rest =>
      match mergePair base key value lang filename with
      | .error e => .error e
      | .ok b => mergeNested b rest lang filename

/-- The body of the `for key, value in incoming.items()` loop of
`_merge_nested`. `base.setdefault(key, d)` followed by an in-place update
of `base[key]` is rendered as a single `setKey` (both write the merged
value at the key's existing position, or append it when absent); the value
the Python code reads after `setdefault` is `(lookup base key).getD d`. -/
def mergePair (base : Obj) (key : String) (value : JVal) (lang filename : String) :
    Except String Obj :=
  match value with
  | .obj o =>
      match (lookup base key).getD (.obj []) with
      | .obj sub =>
          match mergeNested sub o lang filename with
          | .error e => .error e
          | .ok merged => .ok (setKey base key (.obj merged))
      | _ => .error (mismatchMsg key filename)
  | .arr items =>
      match (lookup base key).getD (.arr []) with
      | .arr dst =>
          match mergeItems
              (dst ++ List.replicate (items.length - dst.length) (.obj []))
              items key 0 lang filename with
          | .error e => .error e
          | .ok merged => .ok (setKey base key (.arr merged))
      | _ => .error (mismatchMsg key filename)
  | v =>
      match (lookup base key).getD (.obj []) with
      | .obj leaf => .ok (setKey base key (.obj (setKey leaf lang v)))
      | _ => .error (mismatchMsg key filename)

/-- The `for i, item in enumerate(value)` loop of `_merge_nested`'s list
branch, after the accumulator list has been grown to the incoming length
with empty dicts. A slot that is not a mapping is coerced to an empty dict
before use, as in the source (line 113). -/
def mergeItems (dst : List JVal) (items : List JVal) (key : String) (i : Nat)
    (lang filename : String) : Except String (List JVal) :=
  match dst, items with
  | ds, [] => .ok ds
  | [], _ :: _ => .ok []
  | d :: ds, item :: rest =>
      match item with
      | .obj o =>
          match mergeNested (match d with | .obj s => s | _ => []) o lang filename with
          | .error e => .error e
          | .ok m =>
              match mergeItems ds rest key (i + 1) lang filename with
              | .error e => .error e
              | .ok tail => .ok (.obj m :: tail)
      | .str s =>
          match mergeItems ds rest key (i + 1) lang filename with
          | .error e => .error e
          | .ok tail =>
              .ok (.obj (setKey (match d with | .obj sl => sl | _ => []) lang (.str s)) :: tail)
      | bad => .error (unsupportedMsg filename (pyType bad) key i)

end

/-- The call `_merge_nested(merged, payload, lang, file)` made by the drivers:
the payload's type is never checked, so a non-mapping payload crashes on
`incoming.items()` with an `AttributeError` that is not an
`InvalidTranslationFile`; that crash is modelled by `none`. -/
def mergeTop (base : Obj) (incoming : JVal) (lang filename : String) :
    Option (Except String Obj) :=
  match incoming with
  | .obj kvs => some (mergeNested base kvs lang filename)
  | _ => none

/-- The driver loop shared by the three mergers (source lines 140-147,
151-158, 203-210) after parsing and validation: fold each file's tree into
the shared accumulator, aborting on the first error. A file is the pair of
its language tag (the file stem) and its parsed tree; the stem also stands
in for the file name in error messages. -/
def mergeFiles (acc : Obj) : List (String × Obj) → Except String Obj
  | [] => .ok acc
  | (lang, tree) :: rest =>
      match mergeNested acc tree lang lang with
      | .error e => .error e
      | .ok acc2 => mergeFiles acc2 rest

/-- Whether the character list `s` starts with `pat`. -/
def startsWithL : List Char → List Char → Bool
  | _, [] => true
  | [], _ :: _ => false
  | a :: as, b :: bs => a == b && startsWithL as bs

/-- Whether `pat` occurs as a contiguous run inside `s`. -/
def containsL : List Char → List Char → Bool
  | [], pat => startsWithL [] pat
  | s@(_ :: rest), pat => startsWithL s pat || containsL rest pat

/-- Whether the text `pat` occurs inside the message `msg`. -/
def mentions (msg pat : String) : Bool := containsL msg.data pat.data

/-- One step of a path into a document tree: a dict key or a list index. -/
inductive PathElem : Type where
  | key (k : String)
  | idx (i : Nat)

/-- A path into a document tree. -/
abbrev Path := List PathElem

/-- The subtree of `v` at path `p`, if the path exists. -/
def getSub : JVal → Path → Option JVal
  | v, [] => some v
  | .obj kvs, .key k :: p =>
      match lookup kvs k with
      | some v => getSub v p
      | none => none
  | .arr items, .idx i :: p =>
      match items[i]? with
      | some v => getSub v p
      | none => none
  | _, _ => none

/-- The key set of the mapping at path `p` of `v` (empty if `p` does not
lead to a mapping). -/
def mkeysV (v : JVal) (p : Path) : Finset String :=
  match getSub v p with
  | some (.obj kvs) => keysF kvs
  | _ => ∅

/-- The key set of the mapping at path `p` of the accumulator `o`. -/
def mkeys (o : Obj) (p : Path) : Finset String := mkeysV (.obj o) p

/-- What one merged file contributes to the key set at path `p`: the keys of
its mapping there, its language tag where it has a leaf there (the leaf
becomes the entry `lang` of a per-language map), nothing otherwise. -/
def contribV (lang : String) (v : JVal) (p : Path) : Finset String :=
  match getSub v p with
  | some (.obj kvs) => keysF kvs
  | some (.arr _) => ∅
  | some _ => {lang}
  | none => ∅

/-- The contribution of a single incoming pair `(key, value)` to the key set
at a path of the accumulator. -/
def pairContrib (lang key : String) (value : JVal) : Path → Finset String
  | [] => {key}
  | .key k :: p => if k = key then contribV lang value p else ∅
  | .idx _ :: _ => ∅

/-- The key set of the mapping at path `p` below slot `j` of a list. -/
def elemK (l : List JVal) (j : Nat) (p : Path) : Finset String :=
  match l[j]? with
  | some v => mkeysV v p
  | none => ∅

/-- The contribution of the incoming list `items` at slot `j`, path `p`. -/
def itemContrib (lang : String) (items : List JVal) (j : Nat) (p : Path) :
    Finset String :=
  match items[j]? with
  | some it => contribV lang it p
  | none => ∅

/-- The union the specification's "structural union" property asserts: the
key sets of the contributing files' trees at the path, and nothing else. -/
def unionKeySets (files : List (String × Obj)) (p : Path) : Finset String :=
  (files.map fun f => mkeys f.2 p).foldr (· ∪ ·) ∅

/-- The union the merged tree actually realises at a path: each file's
mapping keys there, plus the language tags of files with a leaf there. -/
def unionContribs (files : List (String × Obj)) (p : Path) : Finset String :=
  (files.map fun f => contribV f.1 (.obj f.2) p).foldr (· ∪ ·) ∅

/-- Whether a value is neither a mapping nor a list (Python's `else` branch). -/
def scalarB : JVal → Bool
  | .obj _ => false
  | .arr _ => false
  | _ => true

/-- Whether a value is a mapping. -/
def isObjB : JVal → Bool
  | .obj _ => true
  | _ => false

mutual

/-- No key of any mapping inside `v` belongs to `L` (input trees whose
structural keys avoid all language tags). -/
def avoidV (L : List String) : JVal → Bool
  | .obj kvs => avoidO L kvs
  | .arr items => avoidA L items
  | _ => true

/-- `avoidV` over a dict. -/
def avoidO (L : List String) : Obj → Bool
  | [] => true
  | (k, v) :: rest => !(L.contains k) && avoidV L v && avoidO L rest

/-- `avoidV` over a list. -/
def avoidA (L : List String) : List JVal → Bool
  | [] => true
  | v :: rest => avoidV L v && avoidA L rest

end

mutual

/-- The accumulator invariant: every list slot is a mapping, and every
mapping entry whose key is a language tag (a member of `L`) holds a
non-container value (a per-language leaf entry). -/
def accInvV (L : List String) : JVal → Bool
  | .obj kvs => accInvO L kvs
  | .arr items => accInvA L items
  | _ => true

/-- `accInvV` over a dict. -/
def accInvO (L : List String) : Obj → Bool
  | [] => true
  | (k, v) :: rest =>
      (!(L.contains k) || scalarB v) && accInvV L v && accInvO L rest

/-- `accInvV` over a list: every slot is a mapping. -/
def accInvA (L : List String) : List JVal → Bool
  | [] => true
  | v :: rest => isObjB v && accInvV L v && accInvA L rest

end

/-- The part of the accumulator invariant that holds unconditionally: every
list slot of the merged tree is a mapping, so a raw string can only occur
as the value of some mapping entry. -/
def accOkO (o : Obj) : Bool := accInvO [] o

mutual

/-- Distinct keys at every mapping level: what any tree parsed from a real
file satisfies, since Python dicts cannot hold a key twice. -/
def nodupV : JVal → Bool
  | .obj kvs => keysDistinctB (kvs.map Prod.fst) && nodupO kvs
  | .arr items => nodupA items
  | _ => true

/-- `nodupV` over a dict's values. -/
def nodupO : Obj → Bool
  | [] => true
  | (_, v) :: rest => nodupV v && nodupO rest

/-- `nodupV` over a list. -/
def nodupA : List JVal → Bool
  | [] => true
  | v :: rest => nodupV v && nodupA rest

/-- No string occurs twice in the list. -/
def keysDistinctB : List String → Bool
  | [] => true
  | k :: ks => !(ks.contains k) && keysDistinctB ks

end

mutual

/-- The result of merging a single validated tree into an empty accumulator
under language `lang`: every string leaf becomes the one-entry map
`{lang: s}`, dicts and lists keep their shape, and a list element that is
neither string nor mapping has no merge result (`none`). -/
def imageVal (lang : String) : JVal → Option JVal
  | .obj kvs =>
      match imageObj lang kvs with
      | some io => some (.obj io)
      | none => none
  | .arr items =>
      match imageItems lang items with
      | some il => some (.arr il)
      | none => none
  | v => some (.obj [(lang, v)])

/-- `imageVal` over a dict, key order preserved. -/
def imageObj (lang : String) : Obj → Option Obj
  | [] => some []
  | (k, v) :: rest =>
      match imageVal lang v with
      | some iv =>
          match imageObj lang rest with
          | some irest => some ((k, iv) :: irest)
          | none => none
      | none => none

/-- `imageVal` over a list: strings become one-entry maps, mappings merge
recursively, anything else is unsupported. -/
def imageItems (lang : String) : List JVal → Option (List JVal)
  | [] => some []
  | .obj o :: rest =>
      match imageObj lang o with
      | some io =>
          match imageItems lang rest with
          | some irest => some (.obj io :: irest)
          | none => none
      | none => none
  | .str s :: rest =>
      match imageItems lang rest with
      | some irest => some (.obj [(lang, .str s)] :: irest)
      | none => none
  | _ :: _ => none

end

mutual

/-- Every per-language leaf map of the tree is exactly the one-entry map
`{lang: s}` for a string `s`, and containers recurse. -/
def mergedOnceV (lang : String) : JVal → Bool
  | .obj [(l, .str _)] => l == lang
  | .obj kvs => mergedOnceO lang kvs
  | .arr items => mergedOnceA lang items
  | _ => false

/-- `mergedOnceV` over a dict's values. -/
def mergedOnceO (lang : String) : Obj → Bool
  | [] => true
  | (_, v) :: rest => mergedOnceV lang v && mergedOnceO lang rest

/-- `mergedOnceV` over a list. -/
def mergedOnceA (lang : String) : List JVal → Bool
  | [] => true
  | v :: rest => mergedOnceV lang v && mergedOnceA lang rest

end

/-- A map all of whose values are strings: a pure language-to-string map. -/
def isLangMapB (kvs : Obj) : Bool :=
  kvs.all fun p => match p.2 with | .str _ => true | _ => false

mutual

/-- The specification's leaf-typing shape, rendered from its words: every
non-container position holds a map from language tag to string, raw
strings appear nowhere else. A mapping is either such a pure leaf map or
a structural map all of whose values again have this shape; a list's
elements all have this shape; a bare string (or other scalar) standing
anywhere else violates it. -/
def leafTypedV : JVal → Bool
  | .obj kvs => isLangMapB kvs || leafTypedO kvs
  | .arr items => leafTypedA items
  | _ => false

/-- `leafTypedV` over a dict's values. -/
def leafTypedO : Obj → Bool
  | [] => true
  | (_, v) :: rest => leafTypedV v && leafTypedO rest

/-- `leafTypedV` over a list. -/
def leafTypedA : List JVal → Bool
  | [] => true
  | v :: rest => leafTypedV v && leafTypedA rest

end

/-- The merged output's top level, seen as the specification's leaf-typing
invariant sees it: a structural map whose values all satisfy the shape. -/
def leafTyped (o : Obj) : Bool := leafTypedO o

end I18n

namespace I18n

theorem lookup_setKey (o : Obj) (k : String) (v : JVal) (k' : String) :
    lookup (setKey o k v) k' = if k = k' then some v else lookup o k' := by
  induction o with
  | nil => simp [setKey, lookup]
  | cons p rest ih =>
    obtain ⟨a, w⟩ := p
    by_cases hak : a = k
    · subst hak
      by_cases hk' : a = k'
      · subst hk'
        simp [setKey, lookup]
      · simp [setKey, lookup, hk']
    · by_cases hk' : a = k'
      · subst hk'
        have hkk' : ¬ k = a := fun hh => hak hh.symm
        simp [setKey, lookup, hak, hkk']
      · simp [setKey, lookup, hak, hk', ih]

theorem keysF_setKey (o : Obj) (k : String) (v : JVal) :
    keysF (setKey o k v) = insert k (keysF o) := by
  induction o with
  | nil => simp [setKey, keysF, keyList]
  | cons p rest ih =>
    obtain ⟨a, w⟩ := p
    by_cases h : a = k
    · subst h
      simp [setKey, keysF, keyList]
    · simp [setKey, h, keysF, keyList] at ih ⊢
      rw [ih]
      exact Finset.Insert.comm a k _

theorem setKey_lookup_self (o : Obj) (k : String) (v : JVal)
    (h : lookup o k = some v) : setKey o k v = o := by
  induction o with
  | nil => simp [lookup] at h
  | cons p rest ih =>
    obtain ⟨a, w⟩ := p
    by_cases ha : a = k
    · subst ha
      simp [lookup] at h
      simp [setKey, h]
    · simp [lookup, ha] at h
      simp [setKey, ha, ih h]

theorem mem_keysF (o : Obj) (k : String) :
    k ∈ keysF o ↔ (lookup o k).isSome := by
  induction o with
  | nil => simp [keysF, keyList, lookup]
  | cons p rest ih =>
    obtain ⟨a, w⟩ := p
    by_cases ha : a = k <;> simp [keysF, keyList, lookup, ha] at ih ⊢ <;> simp [ih]
    exact fun h => absurd h.symm ha

end I18n

namespace I18n

theorem startsWithL_append (pat ys : List Char) :
    startsWithL (pat ++ ys) pat = true := by
  induction pat with
  | nil => simp [startsWithL]
  | cons a as ih => simp [startsWithL, ih]

theorem containsL_nil_pat (s : List Char) : containsL s [] = true := by
  cases s <;> simp [containsL, startsWithL]

theorem containsL_self_append (pat ys : List Char) :
    containsL (pat ++ ys) pat = true := by
  cases pat with
  | nil => simpa using containsL_nil_pat ys
  | cons a as => simp [containsL, startsWithL, startsWithL_append]

theorem containsL_middle (xs pat ys : List Char) :
    containsL (xs ++ (pat ++ ys)) pat = true := by
  induction xs with
  | nil => simpa using containsL_self_append pat ys
  | cons x xs ih => simp [containsL, ih]

theorem mentions_of_embedded (pre k post : String) :
    mentions (pre ++ k ++ post) k = true := by
  unfold mentions
  rw [String.data_append, String.data_append, List.append_assoc]
  exact containsL_middle pre.data k.data post.data

theorem mentions_mismatchMsg (k fn : String) :
    mentions (mismatchMsg k fn) k = true := by
  have h : mismatchMsg k fn =
      "Structure mismatch at key '" ++ k ++
        ("' between languages (file " ++ fn ++ ")") := by
    unfold mismatchMsg
    simp [String.ext_iff, String.data_append, List.append_assoc]
  rw [h]
  exact mentions_of_embedded _ k _

end I18n

namespace I18n

mutual

theorem validateTree_eq (v : JVal) (fn : String) :
    validateTree v fn =
      (match badTypes v with
       | [] => .ok ()
       | ty :: _ => .error (invalidLeafMsg fn ty)) := by
  match v with
  | .obj kvs =>
    rw [validateTree, badTypes]
    exact validateObj_eq kvs fn
  | .arr items =>
    rw [validateTree, badTypes]
    exact validateItems_eq items fn
  | .str s => rfl
  | .int n => rfl
  | .bool b => rfl
  | .null => rfl

theorem validateObj_eq (kvs : Obj) (fn : String) :
    validateObj kvs fn =
      (match badTypesObj kvs with
       | [] => .ok ()
       | ty :: _ => .error (invalidLeafMsg fn ty)) := by
  match kvs with
  | [] => rfl
  | (k, v) :: rest =>
    rw [validateObj, badTypesObj, validateTree_eq v fn]
    cases hb : badTypes v with
    | nil =>
      simp only [List.nil_append]
      exact validateObj_eq rest fn
    | cons ty tl => simp

theorem validateItems_eq (items : List JVal) (fn : String) :
    validateItems items fn =
      (match badTypesArr items with
       | [] => .ok ()
       | ty :: _ => .error (invalidLeafMsg fn ty)) := by
  match items with
  | [] => rfl
  | v :: rest =>
    rw [validateItems, badTypesArr, validateTree_eq v fn]
    cases hb : badTypes v with
    | nil =>
      simp only [List.nil_append]
      exact validateItems_eq rest fn
    | cons ty tl => simp

end

mutual

theorem badTypes_nil_iff (v : JVal) : badTypes v = [] ↔ validV v = true := by
  match v with
  | .obj kvs =>
    rw [badTypes, validV]
    exact badTypesObj_nil_iff kvs
  | .arr items =>
    rw [badTypes, validV]
    exact badTypesArr_nil_iff items
  | .str s => simp [badTypes, validV]
  | .int n => simp [badTypes, validV]
  | .bool b => simp [badTypes, validV]
  | .null => simp [badTypes, validV]

theorem badTypesObj_nil_iff (kvs : Obj) : badTypesObj kvs = [] ↔ validO kvs = true := by
  match kvs with
  | [] => simp [badTypesObj, validO]
  | (k, v) :: rest =>
    rw [badTypesObj, validO]
    simp only [List.append_eq_nil, Bool.and_eq_true]
    exact and_congr (badTypes_nil_iff v) (badTypesObj_nil_iff rest)

theorem badTypesArr_nil_iff (items : List JVal) :
    badTypesArr items = [] ↔ validA items = true := by
  match items with
  | [] => simp [badTypesArr, validA]
  | v :: rest =>
    rw [badTypesArr, validA]
    simp only [List.append_eq_nil, Bool.and_eq_true]
    exact and_congr (badTypes_nil_iff v) (badTypesArr_nil_iff rest)

end

theorem validateTree_ok_iff (v : JVal) (fn : String) :
    validateTree v fn = .ok () ↔ validV v = true := by
  rw [validateTree_eq]
  cases hb : badTypes v with
  | nil => simpa using (badTypes_nil_iff v).mp hb
  | cons ty tl =>
    simp only []
    constructor
    · intro h; cases h
    · intro h
      have := (badTypes_nil_iff v).mpr h
      rw [hb] at this
      cases this

end I18n

namespace I18n

theorem mergeNested_nil (b : Obj) (lang fn : String) :
    mergeNested b [] lang fn = .ok b := rfl

theorem mergeNested_cons (b : Obj) (kk : String) (vv : JVal) (rest : Obj)
    (lang fn : String) :
    mergeNested b ((kk, vv) :: rest) lang fn =
      (match mergePair b kk vv lang fn with
       | .error e => .error e
       | .ok b2 => mergeNested b2 rest lang fn) := rfl

theorem mergePair_scalar (base : Obj) (k : String) (v : JVal) (lang fn : String)
    (hs : scalarB v = true) :
    mergePair base k v lang fn =
      (match (lookup base k).getD (.obj []) with
       | .obj leaf => .ok (setKey base k (.obj (setKey leaf lang v)))
       | _ => .error (mismatchMsg k fn)) := by
  cases v with
  | obj kvs => simp [scalarB] at hs
  | arr items => simp [scalarB] at hs
  | str s => rfl
  | int n => rfl
  | bool b => rfl
  | null => rfl

theorem mergePair_obj (base : Obj) (k : String) (o : Obj) (lang fn : String) :
    mergePair base k (.obj o) lang fn =
      (match (lookup base k).getD (.obj []) with
       | .obj sub =>
           (match mergeNested sub o lang fn with
            | .error e => .error e
            | .ok merged => .ok (setKey base k (.obj merged)))
       | _ => .error (mismatchMsg k fn)) := rfl

theorem mergePair_arr (base : Obj) (k : String) (items : List JVal) (lang fn : String) :
    mergePair base k (.arr items) lang fn =
      (match (lookup base k).getD (.arr []) with
       | .arr dst =>
           (match mergeItems
               (dst ++ List.replicate (items.length - dst.length) (.obj []))
               items k 0 lang fn with
            | .error e => .error e
            | .ok merged => .ok (setKey base k (.arr merged)))
       | _ => .error (mismatchMsg k fn)) := rfl

end I18n

namespace I18n

/-- C1: merging the validated trees of en.json and ru.json (languages en, ru)
into an initially empty accumulator with the deep-merge routine yields
exactly the expected combined tree of the end-to-end example. -/
theorem c1_end_to_end :
    validateTree (.obj [("greet", .str "Hi"), ("items", .arr [.str "a", .str "b"])])
      "en.json" = .ok () ∧
    validateTree (.obj [("greet", .str "Привет"),
      ("items", .arr [.str "х", .str "у", .str "z"])]) "ru.json" = .ok () ∧
    mergeNested [] [("greet", .str "Hi"), ("items", .arr [.str "a", .str "b"])]
      "en" "en.json" =
      .ok [("greet", .obj [("en", .str "Hi")]),
           ("items", .arr [.obj [("en", .str "a")], .obj [("en", .str "b")]])] ∧
    mergeNested
      [("greet", .obj [("en", .str "Hi")]),
       ("items", .arr [.obj [("en", .str "a")], .obj [("en", .str "b")]])]
      [("greet", .str "Привет"), ("items", .arr [.str "х", .str "у", .str "z"])]
      "ru" "ru.json" =
      .ok [("greet", .obj [("en", .str "Hi"), ("ru", .str "Привет")]),
           ("items", .arr [.obj [("en", .str "a"), ("ru", .str "х")],
                           .obj [("en", .str "b"), ("ru", .str "у")],
                           .obj [("ru", .str "z")]])] :=
  ⟨rfl, rfl, rfl, rfl⟩

/-- C6: the validator succeeds exactly on trees built from mappings, lists
and string leaves (empty ones included), and otherwise returns the
`InvalidTranslationFile` whose message names the offending file and the
Python type of the first invalid node in traversal order; being a pure
total function of the tree, it validates all of the tree or fails. -/
theorem c6_validate_exact (t : JVal) (fn : String) :
    (validateTree t fn = .ok () ↔ validV t = true) ∧
    validateTree t fn =
      (match badTypes t with
       | [] => .ok ()
       | ty :: _ => .error (invalidLeafMsg fn ty)) :=
  ⟨validateTree_ok_iff t fn, validateTree_eq t fn⟩

/-- C7 counterexample: validating the tree with the non-string leaf 5 at key
count fails, but the message cites only the file and the type int; the key
count appears nowhere in it, contrary to the claim. -/
theorem c7_counterexample :
    validateTree (.obj [("count", .int 5)]) "en.json" =
      .error "en.json: leaf values must be strings, got int" ∧
    mentions "en.json: leaf values must be strings, got int" "count" = false :=
  ⟨rfl, by decide⟩

/-- C7 amended: validating the tree with the non-string leaf 5 at key count
fails with the invalid-structure error whose message cites the offending
file and the actual type encountered (int), but not the key. -/
theorem c7_amended :
    validateTree (.obj [("count", .int 5)]) "en.json" =
      .error (invalidLeafMsg "en.json" "int") ∧
    mentions (invalidLeafMsg "en.json" "int") "en.json" = true ∧
    mentions (invalidLeafMsg "en.json" "int") "int" = true ∧
    mentions (invalidLeafMsg "en.json" "int") "count" = false :=
  ⟨rfl, by decide, by decide, by decide⟩

/-- C2 counterexample: after a file with an object at key title has been
merged, merging a second file with a string at title does not fail at all:
the merged leaf maps are dicts, so the mapping check passes and the string
is written as a language entry beside the structural key. -/
theorem c2_counterexample :
    mergeNested [] [("title", .obj [("main", .str "X")])] "en" "en.json" =
      .ok [("title", .obj [("main", .obj [("en", .str "X")])])] ∧
    mergeNested [("title", .obj [("main", .obj [("en", .str "X")])])]
      [("title", .str "Y")] "ru" "ru.json" =
      .ok [("title", .obj [("main", .obj [("en", .str "X")]), ("ru", .str "Y")])] :=
  ⟨rfl, rfl⟩

/-- C2 amended: when the incoming value at a key is a string and a non-mapping
(in the accumulator that means a list) already exists at that key, the merge
fails with the structure-mismatch error naming the key; but a previously
merged object at the key leaves a mapping there, so a later string merges
into it as a language entry instead of failing. -/
theorem c2_amended (base : Obj) (k : String) (v : JVal) (s lang fn : String)
    (hv : lookup base k = some v) (hnm : isObjB v = false) :
    mergeNested base [(k, .str s)] lang fn = .error (mismatchMsg k fn) ∧
    mentions (mismatchMsg k fn) k = true := by
  refine ⟨?_, mentions_mismatchMsg k fn⟩
  rw [mergeNested_cons,
    mergePair_scalar base k (.str s) lang fn (by simp [scalarB])]
  rw [hv]
  cases v with
  | obj kvs => simp [isObjB] at hnm
  | arr items => rfl
  | str s' => rfl
  | int n => rfl
  | bool b => rfl
  | null => rfl

/-- C2 witness: a list previously merged at title, then a string at title,
produces the structure-mismatch error naming title. -/
theorem c2_witness :
    mergeNested [("title", JVal.arr [])] [("title", JVal.str "Y")] "ru" "ru.json" =
      .error (mismatchMsg "title" "ru.json") ∧
    mentions (mismatchMsg "title" "ru.json") "title" = true :=
  c2_amended [("title", JVal.arr [])] "title" (JVal.arr []) "Y" "ru" "ru.json"
    rfl rfl

/-- C10: a bare string passes the validator, and so does a bare list of
valid elements, yet handing either to the merge routine is a crash outside
the declared error kinds (Python calls `.items()` on a non-mapping and gets
an `AttributeError`); only a top-level mapping reaches `_merge_nested`. -/
theorem c10_top_shape (s : String) (items : List JVal) (base kvs : Obj)
    (lang fn : String) (hv : validA items = true) :
    validateTree (.str s) fn = .ok () ∧
    mergeTop base (.str s) lang fn = none ∧
    validateTree (.arr items) fn = .ok () ∧
    mergeTop base (.arr items) lang fn = none ∧
    mergeTop base (.obj kvs) lang fn = some (mergeNested base kvs lang fn) := by
  refine ⟨rfl, rfl, ?_, rfl, rfl⟩
  exact (validateTree_ok_iff _ fn).mpr (by rw [validV]; exact hv)

/-- C10 witness: the claim at a concrete bare string, bare list, and mapping. -/
theorem c10_witness :
    validateTree (.str "hello") "en.json" = .ok () ∧
    mergeTop [] (.str "hello") "en" "en.json" = none ∧
    validateTree (.arr [.str "a"]) "en.json" = .ok () ∧
    mergeTop [] (.arr [.str "a"]) "en" "en.json" = none ∧
    mergeTop [] (.obj [("k", .str "v")]) "en" "en.json" =
      some (mergeNested [] [("k", .str "v")] "en" "en.json") :=
  c10_top_shape "hello" [.str "a"] [] [("k", .str "v")] "en" "en.json" (by decide)

/-- C9: when two merge calls write a string at the same position under the
same language, the later value silently overwrites the earlier one and no
error is raised; and the merge routine folds the incoming pairs strictly in
the order they appear in the incoming dict. -/
theorem c9_last_writer_wins (base : Obj) (k s1 s2 lang fn fn2 : String) (m1 : Obj)
    (h1 : mergeNested base [(k, .str s1)] lang fn = .ok m1) :
    (∃ m2 leaf, mergeNested m1 [(k, .str s2)] lang fn2 = .ok m2 ∧
        lookup m2 k = some (.obj leaf) ∧ lookup leaf lang = some (.str s2)) ∧
    (∀ (b : Obj) (kk : String) (vv : JVal) (rest : Obj),
        mergeNested b ((kk, vv) :: rest) lang fn =
          (match mergePair b kk vv lang fn with
           | .error e => .error e
           | .ok b2 => mergeNested b2 rest lang fn)) := by
  refine ⟨?_, fun b kk vv rest => mergeNested_cons b kk vv rest lang fn⟩
  rw [mergeNested_cons,
    mergePair_scalar base k (.str s1) lang fn (by simp [scalarB])] at h1
  cases hl : (lookup base k).getD (.obj []) with
  | obj leaf =>
    rw [hl] at h1
    simp only [mergeNested_nil] at h1
    have hm1 : m1 = setKey base k (.obj (setKey leaf lang (.str s1))) :=
      (Except.ok.inj h1).symm
    refine ⟨setKey m1 k (.obj (setKey (setKey leaf lang (.str s1)) lang (.str s2))),
      setKey (setKey leaf lang (.str s1)) lang (.str s2), ?_, ?_, ?_⟩
    · rw [mergeNested_cons,
        mergePair_scalar m1 k (.str s2) lang fn2 (by simp [scalarB])]
      have : lookup m1 k = some (.obj (setKey leaf lang (.str s1))) := by
        rw [hm1, lookup_setKey]
        simp
      rw [this]
      rfl
    · rw [lookup_setKey]
      simp
    · rw [lookup_setKey]
      simp
  | str s' => rw [hl] at h1; cases h1
  | int n => rw [hl] at h1; cases h1
  | bool b => rw [hl] at h1; cases h1
  | null => rw [hl] at h1; cases h1
  | arr items => rw [hl] at h1; cases h1

/-- C9 witness: two merges of a string at key k under language en; the second
value is the one left in the leaf map. -/
theorem c9_witness :
    (∃ m2 leaf, mergeNested [("k", .obj [("en", .str "one")])]
        [("k", .str "two")] "en" "b.json" = .ok m2 ∧
        lookup m2 "k" = some (.obj leaf) ∧ lookup leaf "en" = some (.str "two")) ∧
    (∀ (b : Obj) (kk : String) (vv : JVal) (rest : Obj),
        mergeNested b ((kk, vv) :: rest) "en" "a.json" =
          (match mergePair b kk vv "en" "a.json" with
           | .error e => .error e
           | .ok b2 => mergeNested b2 rest "en" "a.json")) :=
  c9_last_writer_wins [] "k" "one" "two" "en" "a.json" "b.json"
    [("k", .obj [("en", .str "one")])] rfl

end I18n

namespace I18n

/-- The coercion on line 113 of the source: a list slot that is not a mapping
is replaced by an empty dict before the element is merged into it. -/
def slotObj : JVal → Obj
  | .obj s => s
  | _ => []

theorem mergeItems_nil_items (ds : List JVal) (k : String) (i : Nat)
    (lang fn : String) : mergeItems ds [] k i lang fn = .ok ds := by
  cases ds <;> rfl

theorem mergeItems_nil_dst (it : JVal) (rest : List JVal) (k : String) (i : Nat)
    (lang fn : String) : mergeItems [] (it :: rest) k i lang fn = .ok [] := rfl

theorem mergeItems_cons_obj (d : JVal) (ds : List JVal) (o : Obj)
    (rest : List JVal) (k : String) (i : Nat) (lang fn : String) :
    mergeItems (d :: ds) (.obj o :: rest) k i lang fn =
      (match mergeNested (slotObj d) o lang fn with
       | .error e => .error e
       | .ok m =>
           match mergeItems ds rest k (i + 1) lang fn with
           | .error e => .error e
           | .ok tail => .ok (.obj m :: tail)) := by
  cases d <;> rfl

theorem mergeItems_cons_str (d : JVal) (ds : List JVal) (s : String)
    (rest : List JVal) (k : String) (i : Nat) (lang fn : String) :
    mergeItems (d :: ds) (.str s :: rest) k i lang fn =
      (match mergeItems ds rest k (i + 1) lang fn with
       | .error e => .error e
       | .ok tail => .ok (.obj (setKey (slotObj d) lang (.str s)) :: tail)) := by
  cases d <;> rfl

theorem mergeItems_cons_bad (d : JVal) (ds : List JVal) (bad : JVal)
    (rest : List JVal) (k : String) (i : Nat) (lang fn : String)
    (hob : isObjB bad = false) (hst : ∀ s, bad ≠ .str s) :
    mergeItems (d :: ds) (bad :: rest) k i lang fn =
      .error (unsupportedMsg fn (pyType bad) k i) := by
  cases bad with
  | obj o => simp [isObjB] at hob
  | str s => exact absurd rfl (hst s)
  | int n => cases d <;> rfl
  | bool b => cases d <;> rfl
  | null => cases d <;> rfl
  | arr l => cases d <;> rfl

theorem mergeItems_length (dst items : List JVal) (k : String) (i : Nat)
    (lang fn : String) (out : List JVal)
    (h : mergeItems dst items k i lang fn = .ok out) : out.length = dst.length := by
  match dst, items with
  | ds, [] =>
    rw [mergeItems_nil_items] at h
    cases h
    rfl
  | [], it :: rest =>
    rw [mergeItems_nil_dst] at h
    cases h
    rfl
  | d :: ds, item :: rest =>
    cases item with
    | obj o =>
      rw [mergeItems_cons_obj] at h
      cases hm : mergeNested (slotObj d) o lang fn with
      | error e => rw [hm] at h; cases h
      | ok m =>
        rw [hm] at h
        cases ht : mergeItems ds rest k (i + 1) lang fn with
        | error e => rw [ht] at h; cases h
        | ok tail =>
          rw [ht] at h
          cases h
          have ih := mergeItems_length ds rest k (i + 1) lang fn tail ht
          simp [ih]
    | str s =>
      rw [mergeItems_cons_str] at h
      cases ht : mergeItems ds rest k (i + 1) lang fn with
      | error e => rw [ht] at h; cases h
      | ok tail =>
        rw [ht] at h
        cases h
        have ih := mergeItems_length ds rest k (i + 1) lang fn tail ht
        simp [ih]
    | int n => rw [mergeItems_cons_bad d ds (.int n) rest k i lang fn rfl (fun _ h => JVal.noConfusion h)] at h; cases h
    | bool b => rw [mergeItems_cons_bad d ds (.bool b) rest k i lang fn rfl (fun _ h => JVal.noConfusion h)] at h; cases h
    | null => rw [mergeItems_cons_bad d ds (.null) rest k i lang fn rfl (fun _ h => JVal.noConfusion h)] at h; cases h
    | arr l => rw [mergeItems_cons_bad d ds (.arr l) rest k i lang fn rfl (fun _ h => JVal.noConfusion h)] at h; cases h

end I18n

namespace I18n

/-- C4: when language A contributes a 2-element string array at key k and
language B then contributes a 5-element one, the merged array at k has
length 5 and its slots 2 to 4 hold entries for B only; and in general the
slot-merge loop never shrinks the grown accumulator list, whose length is
the maximum of the two contributed lengths. -/
theorem c4_sequence_growth (k A B fn fn2 : String) (xs ys : List String)
    (h2 : xs.length = 2) (h5 : ys.length = 5) :
    (∃ m1 m2 zs y2 y3 y4,
      mergeNested [] [(k, .arr (xs.map .str))] A fn = .ok m1 ∧
      mergeNested m1 [(k, .arr (ys.map .str))] B fn2 = .ok m2 ∧
      lookup m2 k = some (.arr zs) ∧
      zs.length = 5 ∧
      ys[2]? = some y2 ∧ zs[2]? = some (.obj [(B, .str y2)]) ∧
      ys[3]? = some y3 ∧ zs[3]? = some (.obj [(B, .str y3)]) ∧
      ys[4]? = some y4 ∧ zs[4]? = some (.obj [(B, .str y4)])) ∧
    (∀ (dst items : List JVal) (kk : String) (j : Nat) (lg f : String)
        (out : List JVal),
      mergeItems (dst ++ List.replicate (items.length - dst.length) (.obj []))
          items kk j lg f = .ok out →
      out.length = max dst.length items.length) := by
  constructor
  · obtain ⟨x0, x1, rfl⟩ := List.length_eq_two.mp h2
    obtain ⟨y0, t0, rfl⟩ := List.exists_cons_of_length_eq_add_one
      (by rw [h5] : ys.length = 4 + 1)
    obtain ⟨y1, t1, rfl⟩ := List.exists_cons_of_length_eq_add_one
      (by simpa using h5 : t0.length = 3 + 1)
    obtain ⟨y2, t2, rfl⟩ := List.exists_cons_of_length_eq_add_one
      (by simpa using h5 : t1.length = 2 + 1)
    obtain ⟨y3, t3, rfl⟩ := List.exists_cons_of_length_eq_add_one
      (by simpa using h5 : t2.length = 1 + 1)
    obtain ⟨y4, t4, rfl⟩ := List.exists_cons_of_length_eq_add_one
      (by simpa using h5 : t3.length = 0 + 1)
    have ht4 : t4 = [] := by simpa using h5
    subst ht4
    refine ⟨[(k, .arr [.obj [(A, .str x0)], .obj [(A, .str x1)]])],
      setKey [(k, .arr [.obj [(A, .str x0)], .obj [(A, .str x1)]])] k
        (.arr [.obj (setKey [(A, .str x0)] B (.str y0)),
               .obj (setKey [(A, .str x1)] B (.str y1)),
               .obj [(B, .str y2)], .obj [(B, .str y3)], .obj [(B, .str y4)]]),
      [.obj (setKey [(A, .str x0)] B (.str y0)),
       .obj (setKey [(A, .str x1)] B (.str y1)),
       .obj [(B, .str y2)], .obj [(B, .str y3)], .obj [(B, .str y4)]],
      y2, y3, y4, ?_, ?_, ?_, by simp, rfl, by simp, rfl, by simp, rfl, by simp⟩
    · simp [mergeNested_cons, mergePair_arr, lookup, mergeItems_cons_str,
        mergeItems_nil_items, mergeNested_nil, slotObj, setKey, List.replicate]
    · simp [mergeNested_cons, mergePair_arr, lookup, mergeItems_cons_str,
        mergeItems_nil_items, mergeNested_nil, slotObj, setKey, List.replicate]
    · rw [lookup_setKey]
      simp
  · intro dst items kk j lg f out h
    have hl := mergeItems_length _ items kk j lg f out h
    rw [hl]
    simp only [List.length_append, List.length_replicate]
    omega

end I18n

namespace I18n

/-- C4 witness: concrete arrays of lengths 2 and 5 at key k. -/
theorem c4_witness :
    (∃ m1 m2 zs y2 y3 y4,
      mergeNested [] [("k", .arr (["p", "q"].map .str))] "A" "a.json" = .ok m1 ∧
      mergeNested m1 [("k", .arr (["u", "v", "w", "x", "y"].map .str))] "B"
        "b.json" = .ok m2 ∧
      lookup m2 "k" = some (.arr zs) ∧
      zs.length = 5 ∧
      ["u", "v", "w", "x", "y"][2]? = some y2 ∧
      zs[2]? = some (.obj [("B", .str y2)]) ∧
      ["u", "v", "w", "x", "y"][3]? = some y3 ∧
      zs[3]? = some (.obj [("B", .str y3)]) ∧
      ["u", "v", "w", "x", "y"][4]? = some y4 ∧
      zs[4]? = some (.obj [("B", .str y4)])) ∧
    (∀ (dst items : List JVal) (kk : String) (j : Nat) (lg f : String)
        (out : List JVal),
      mergeItems (dst ++ List.replicate (items.length - dst.length) (.obj []))
          items kk j lg f = .ok out →
      out.length = max dst.length items.length) :=
  c4_sequence_growth "k" "A" "B" "a.json" "b.json" ["p", "q"]
    ["u", "v", "w", "x", "y"] rfl rfl

theorem accInv_lookup (L : List String) (o : Obj) (k : String) (v : JVal)
    (ho : accInvO L o = true) (hl : lookup o k = some v) : accInvV L v = true := by
  induction o with
  | nil => simp [lookup] at hl
  | cons p rest ih =>
    obtain ⟨a, w⟩ := p
    rw [accInvO] at ho
    simp only [Bool.and_eq_true] at ho
    by_cases ha : a = k
    · subst ha
      simp [lookup] at hl
      subst hl
      exact ho.1.2
    · rw [lookup, if_neg ha] at hl
      exact ih ho.2 hl

theorem accInv_lookup_lang (L : List String) (o : Obj) (k : String) (v : JVal)
    (ho : accInvO L o = true) (hk : L.contains k = true)
    (hl : lookup o k = some v) : scalarB v = true := by
  induction o with
  | nil => simp [lookup] at hl
  | cons p rest ih =>
    obtain ⟨a, w⟩ := p
    rw [accInvO] at ho
    simp only [Bool.and_eq_true] at ho
    by_cases ha : a = k
    · subst ha
      simp [lookup] at hl
      subst hl
      rcases Bool.or_eq_true_iff.mp ho.1.1 with hno | hs
      · rw [hk] at hno
        cases hno
      · exact hs
    · rw [lookup, if_neg ha] at hl
      exact ih ho.2 hl

theorem accInv_setKey (L : List String) (o : Obj) (k : String) (v : JVal)
    (ho : accInvO L o = true) (hv : accInvV L v = true)
    (hk : (!(L.contains k) || scalarB v) = true) :
    accInvO L (setKey o k v) = true := by
  induction o with
  | nil =>
    rw [setKey, accInvO]
    simp only [Bool.and_eq_true]
    exact ⟨⟨hk, hv⟩, rfl⟩
  | cons p rest ih =>
    obtain ⟨a, w⟩ := p
    rw [accInvO] at ho
    simp only [Bool.and_eq_true] at ho
    by_cases ha : a = k
    · subst ha
      rw [setKey, if_pos rfl, accInvO]
      simp only [Bool.and_eq_true]
      exact ⟨⟨hk, hv⟩, ho.2⟩
    · rw [setKey, if_neg ha, accInvO]
      simp only [Bool.and_eq_true]
      exact ⟨⟨ho.1.1, ho.1.2⟩, ih ho.2⟩

theorem accInvA_append (L : List String) (a b : List JVal)
    (ha : accInvA L a = true) (hb : accInvA L b = true) :
    accInvA L (a ++ b) = true := by
  induction a with
  | nil => simpa using hb
  | cons x xs ih =>
    rw [accInvA] at ha
    simp only [Bool.and_eq_true] at ha
    rw [List.cons_append, accInvA]
    simp [ha.1.1, ha.1.2, ih ha.2]

theorem accInvA_replicate (L : List String) (n : Nat) :
    accInvA L (List.replicate n (.obj [])) = true := by
  induction n with
  | zero => rfl
  | succ m ih =>
    rw [List.replicate_succ, accInvA]
    simp [isObjB, accInvV, accInvO, ih]

end I18n

namespace I18n

theorem accInvV_obj (L : List String) (kvs : Obj) :
    accInvV L (.obj kvs) = accInvO L kvs := rfl

theorem accInvV_arr (L : List String) (items : List JVal) :
    accInvV L (.arr items) = accInvA L items := rfl

theorem avoidV_obj (L : List String) (kvs : Obj) :
    avoidV L (.obj kvs) = avoidO L kvs := rfl

theorem avoidV_arr (L : List String) (items : List JVal) :
    avoidV L (.arr items) = avoidA L items := rfl

theorem slotObj_accInv (L : List String) (d : JVal) (hd : isObjB d = true)
    (hv : accInvV L d = true) : accInvO L (slotObj d) = true := by
  cases d with
  | obj o => exact hv
  | str s => simp [isObjB] at hd
  | int n => simp [isObjB] at hd
  | bool b => simp [isObjB] at hd
  | null => simp [isObjB] at hd
  | arr l => simp [isObjB] at hd

theorem accInv_getD_obj (L : List String) (base : Obj) (k : String) (sub : Obj)
    (hb : accInvO L base = true)
    (hl : (lookup base k).getD (.obj []) = .obj sub) : accInvO L sub = true := by
  cases hlk : lookup base k with
  | none =>
    rw [hlk] at hl
    simp only [Option.getD_none] at hl
    cases hl
    rfl
  | some w =>
    rw [hlk] at hl
    simp only [Option.getD_some] at hl
    subst hl
    exact accInv_lookup L base k _ hb hlk

theorem accInv_getD_arr (L : List String) (base : Obj) (k : String)
    (dst : List JVal) (hb : accInvO L base = true)
    (hl : (lookup base k).getD (.arr []) = .arr dst) : accInvA L dst = true := by
  cases hlk : lookup base k with
  | none =>
    rw [hlk] at hl
    simp only [Option.getD_none] at hl
    cases hl
    rfl
  | some w =>
    rw [hlk] at hl
    simp only [Option.getD_some] at hl
    subst hl
    exact accInv_lookup L base k _ hb hlk

theorem scalar_accInvV (L : List String) (v : JVal) (hs : scalarB v = true) :
    accInvV L v = true := by
  cases v with
  | str s => rfl
  | int n => rfl
  | bool b => rfl
  | null => rfl
  | obj o => simp [scalarB] at hs
  | arr l => simp [scalarB] at hs

mutual

theorem accInv_mergeNested (L : List String) (base inc : Obj) (lang fn : String)
    (out : Obj) (hb : accInvO L base = true) (hi : avoidO L inc = true)
    (h : mergeNested base inc lang fn = .ok out) : accInvO L out = true := by
  match inc with
  | [] =>
    rw [mergeNested_nil] at h
    cases h
    exact hb
  | (key, value) :: rest =>
    rw [mergeNested_cons] at h
    rw [avoidO] at hi
    simp only [Bool.and_eq_true] at hi
    split at h
    next e hp => cases h
    next b hp =>
      have hbb := accInv_mergePair L base key value lang fn b hb
        (by simpa using hi.1.1) hi.1.2 hp
      exact accInv_mergeNested L b rest lang fn out hbb hi.2 h
termination_by (sizeOf inc, 0)

theorem accInv_mergePair (L : List String) (base : Obj) (k : String) (v : JVal)
    (lang fn : String) (out : Obj) (hb : accInvO L base = true)
    (hk : L.contains k = false) (hv : avoidV L v = true)
    (h : mergePair base k v lang fn = .ok out) : accInvO L out = true := by
  cases v with
  | obj o =>
    rw [mergePair_obj] at h
    split at h
    next sub heq =>
      split at h
      next e hm => cases h
      next merged hm =>
        cases h
        have hsub := accInv_getD_obj L base k sub hb heq
        have hmer := accInv_mergeNested L sub o lang fn merged hsub
          (by rw [← avoidV_obj]; exact hv) hm
        exact accInv_setKey L base k (.obj merged) hb
          (by rw [accInvV_obj]; exact hmer) (by rw [hk]; rfl)
    next heq => cases h
  | arr items =>
    rw [mergePair_arr] at h
    split at h
    next dst heq =>
      split at h
      next e hm => cases h
      next merged hm =>
        cases h
        have hdst := accInv_getD_arr L base k dst hb heq
        have hgrown := accInvA_append L dst
          (List.replicate (items.length - dst.length) (.obj [])) hdst
          (accInvA_replicate L (items.length - dst.length))
        have hmer := accInv_mergeItems L _ items k 0 lang fn merged hgrown
          (by rw [← avoidV_arr]; exact hv) hm
        exact accInv_setKey L base k (.arr merged) hb
          (by rw [accInvV_arr]; exact hmer) (by rw [hk]; rfl)
    next heq => cases h
  | str s => exact accInv_mergePair_leaf L base k (.str s) lang fn out hb hk rfl h
  | int n => exact accInv_mergePair_leaf L base k (.int n) lang fn out hb hk rfl h
  | bool b => exact accInv_mergePair_leaf L base k (.bool b) lang fn out hb hk rfl h
  | null => exact accInv_mergePair_leaf L base k .null lang fn out hb hk rfl h
termination_by (sizeOf v, 1)

theorem accInv_mergePair_leaf (L : List String) (base : Obj) (k : String)
    (v : JVal) (lang fn : String) (out : Obj) (hb : accInvO L base = true)
    (hk : L.contains k = false) (hs : scalarB v = true)
    (h : mergePair base k v lang fn = .ok out) : accInvO L out = true := by
  rw [mergePair_scalar base k v lang fn hs] at h
  split at h
  next leaf heq =>
    cases h
    have hleaf := accInv_getD_obj L base k leaf hb heq
    have hinner := accInv_setKey L leaf lang v hleaf
      (scalar_accInvV L v hs) (by simp [hs])
    exact accInv_setKey L base k (.obj (setKey leaf lang v)) hb
      (by rw [accInvV_obj]; exact hinner) (by rw [hk]; rfl)
  next heq => cases h

theorem accInv_mergeItems (L : List String) (dst items : List JVal)
    (k : String) (i : Nat) (lang fn : String) (out : List JVal)
    (hd : accInvA L dst = true) (hi : avoidA L items = true)
    (h : mergeItems dst items k i lang fn = .ok out) : accInvA L out = true := by
  match dst, items with
  | ds, [] =>
    rw [mergeItems_nil_items] at h
    cases h
    exact hd
  | [], it :: rest =>
    rw [mergeItems_nil_dst] at h
    cases h
    rfl
  | d :: ds, item :: rest =>
    rw [accInvA] at hd
    rw [avoidA] at hi
    simp only [Bool.and_eq_true] at hd hi
    have hslot := slotObj_accInv L d hd.1.1 hd.1.2
    cases item with
    | obj o =>
      rw [mergeItems_cons_obj] at h
      split at h
      next e hm => cases h
      next m hm =>
        split at h
        next e ht => cases h
        next tail ht =>
          cases h
          have hm2 := accInv_mergeNested L (slotObj d) o lang fn m hslot
            (by rw [← avoidV_obj]; exact hi.1) hm
          have ht2 := accInv_mergeItems L ds rest k (i + 1) lang fn tail hd.2 hi.2 ht
          rw [accInvA]
          simp only [Bool.and_eq_true]
          exact ⟨⟨rfl, by rw [accInvV_obj]; exact hm2⟩, ht2⟩
    | str s =>
      rw [mergeItems_cons_str] at h
      split at h
      next e ht => cases h
      next tail ht =>
        cases h
        have ht2 := accInv_mergeItems L ds rest k (i + 1) lang fn tail hd.2 hi.2 ht
        have hinner := accInv_setKey L (slotObj d) lang (.str s) hslot rfl
          (by simp [scalarB])
        rw [accInvA]
        simp only [Bool.and_eq_true]
        exact ⟨⟨rfl, by rw [accInvV_obj]; exact hinner⟩, ht2⟩
    | int n =>
      rw [mergeItems_cons_bad d ds (.int n) rest k i lang fn rfl
        (fun _ h => JVal.noConfusion h)] at h
      cases h
    | bool b =>
      rw [mergeItems_cons_bad d ds (.bool b) rest k i lang fn rfl
        (fun _ h => JVal.noConfusion h)] at h
      cases h
    | null =>
      rw [mergeItems_cons_bad d ds .null rest k i lang fn rfl
        (fun _ h => JVal.noConfusion h)] at h
      cases h
    | arr l =>
      rw [mergeItems_cons_bad d ds (.arr l) rest k i lang fn rfl
        (fun _ h => JVal.noConfusion h)] at h
      cases h
termination_by (sizeOf items, 0)

end

end I18n

namespace I18n

mutual

theorem avoidV_nil (v : JVal) : avoidV [] v = true := by
  match v with
  | .obj kvs =>
    rw [avoidV_obj]
    exact avoidO_nil kvs
  | .arr items =>
    rw [avoidV_arr]
    exact avoidA_nil items
  | .str s => rfl
  | .int n => rfl
  | .bool b => rfl
  | .null => rfl

theorem avoidO_nil (o : Obj) : avoidO [] o = true := by
  match o with
  | [] => rfl
  | (k, v) :: rest =>
    rw [avoidO]
    simp [avoidV_nil v, avoidO_nil rest]

theorem avoidA_nil (l : List JVal) : avoidA [] l = true := by
  match l with
  | [] => rfl
  | v :: rest =>
    rw [avoidA]
    simp [avoidV_nil v, avoidA_nil rest]

end

theorem mergeFiles_nil (acc : Obj) : mergeFiles acc [] = .ok acc := rfl

theorem mergeFiles_cons (acc : Obj) (lang : String) (tree : Obj)
    (rest : List (String × Obj)) :
    mergeFiles acc ((lang, tree) :: rest) =
      (match mergeNested acc tree lang lang with
       | .error e => .error e
       | .ok acc2 => mergeFiles acc2 rest) := rfl

theorem accOk_mergeFiles (files : List (String × Obj)) (acc out : Obj)
    (hacc : accInvO [] acc = true) (h : mergeFiles acc files = .ok out) :
    accInvO [] out = true := by
  induction files generalizing acc with
  | nil =>
    rw [mergeFiles_nil] at h
    cases h
    exact hacc
  | cons f rest ih =>
    obtain ⟨lang, tree⟩ := f
    rw [mergeFiles_cons] at h
    split at h
    next e hm => cases h
    next acc2 hm =>
      exact ih acc2
        (accInv_mergeNested [] acc tree lang lang acc2 hacc (avoidO_nil tree) hm) h

/-- C3 counterexample: two validated files merge successfully, yet the merged
tree violates the leaf-typing shape the specification asserts: the map at
title mixes the structural key main with the language entry ru, whose value
is the raw string Y. -/
theorem c3_counterexample :
    validV (.obj [("title", .obj [("main", .str "X")])]) = true ∧
    validV (.obj [("title", .str "Y")]) = true ∧
    mergeFiles [] [("en", [("title", .obj [("main", .str "X")])]),
                   ("ru", [("title", .str "Y")])] =
      .ok [("title", .obj [("main", .obj [("en", .str "X")]), ("ru", .str "Y")])] ∧
    leafTyped [("title", .obj [("main", .obj [("en", .str "X")]), ("ru", .str "Y")])]
      = false :=
  ⟨rfl, rfl, rfl, rfl⟩

/-- C3 amended: for every collection of validated input trees merged into an
initially empty accumulator, every sequence slot of the merged tree is a
mapping, so raw strings occur only as values of map entries (never as
sequence elements or as the root); the stronger shape - that every such map
entry sits in a pure language-to-string leaf map - fails when a key receives
both an object and a string, as the counterexample shows. -/
theorem c3_amended (files : List (String × Obj)) (out : Obj)
    (hv : ∀ f ∈ files, validV (.obj f.2) = true)
    (h : mergeFiles [] files = .ok out) : accOkO out = true :=
  accOk_mergeFiles files [] out rfl h

/-- C3 witness: the amended invariant at the counterexample's own files. -/
theorem c3_witness :
    accOkO [("title", .obj [("main", .obj [("en", .str "X")]), ("ru", .str "Y")])]
      = true :=
  c3_amended [("en", [("title", .obj [("main", .str "X")])]),
              ("ru", [("title", .str "Y")])]
    [("title", .obj [("main", .obj [("en", .str "X")]), ("ru", .str "Y")])]
    (by decide) rfl

end I18n

namespace I18n

theorem nodupV_obj (kvs : Obj) :
    nodupV (.obj kvs) = (keysDistinctB (kvs.map Prod.fst) && nodupO kvs) := rfl

theorem lookup_append (a b : Obj) (k : String) :
    lookup (a ++ b) k =
      (match lookup a k with
       | some v => some v
       | none => lookup b k) := by
  induction a with
  | nil => simp [lookup]
  | cons p rest ih =>
    obtain ⟨x, w⟩ := p
    by_cases hx : x = k
    · subst hx
      simp [lookup]
    · simp [lookup, hx, ih]

theorem setKey_absent (o : Obj) (k : String) (v : JVal)
    (h : lookup o k = none) : setKey o k v = o ++ [(k, v)] := by
  induction o with
  | nil => rfl
  | cons p rest ih =>
    obtain ⟨x, w⟩ := p
    by_cases hx : x = k
    · subst hx
      rw [lookup, if_pos rfl] at h
      cases h
    · rw [lookup, if_neg hx] at h
      rw [setKey, if_neg hx, List.cons_append, ih h]

theorem lookup_isSome_mem (o : Obj) (k : String) :
    (lookup o k).isSome = true ↔ k ∈ keyList o := by
  induction o with
  | nil => simp [lookup, keyList]
  | cons p rest ih =>
    obtain ⟨x, w⟩ := p
    by_cases hx : x = k
    · subst hx
      simp [lookup, keyList]
    · simp [lookup, hx, keyList, ih]
      exact fun h => absurd h.symm hx

theorem imageVal_obj (lang : String) (kvs : Obj) :
    imageVal lang (.obj kvs) =
      (match imageObj lang kvs with
       | some io => some (.obj io)
       | none => none) := rfl

theorem imageVal_arr (lang : String) (items : List JVal) :
    imageVal lang (.arr items) =
      (match imageItems lang items with
       | some il => some (.arr il)
       | none => none) := rfl

theorem imageVal_scalar (lang : String) (v : JVal) (hs : scalarB v = true) :
    imageVal lang v = some (.obj [(lang, v)]) := by
  cases v with
  | str s => rfl
  | int n => rfl
  | bool b => rfl
  | null => rfl
  | obj o => simp [scalarB] at hs
  | arr l => simp [scalarB] at hs

theorem imageObj_cons (lang : String) (k : String) (v : JVal) (rest : Obj) :
    imageObj lang ((k, v) :: rest) =
      (match imageVal lang v with
       | some iv =>
           (match imageObj lang rest with
            | some irest => some ((k, iv) :: irest)
            | none => none)
       | none => none) := rfl

theorem imageItems_cons_obj (lang : String) (o : Obj) (rest : List JVal) :
    imageItems lang (.obj o :: rest) =
      (match imageObj lang o with
       | some io =>
           (match imageItems lang rest with
            | some irest => some (.obj io :: irest)
            | none => none)
       | none => none) := rfl

theorem imageItems_cons_str (lang : String) (s : String) (rest : List JVal) :
    imageItems lang (.str s :: rest) =
      (match imageItems lang rest with
       | some irest => some (.obj [(lang, .str s)] :: irest)
       | none => none) := rfl

theorem imageItems_cons_bad (lang : String) (bad : JVal) (rest : List JVal)
    (hob : isObjB bad = false) (hst : ∀ s, bad ≠ .str s) :
    imageItems lang (bad :: rest) = none := by
  cases bad with
  | obj o => simp [isObjB] at hob
  | str s => exact absurd rfl (hst s)
  | int n => rfl
  | bool b => rfl
  | null => rfl
  | arr l => rfl

theorem imageVal_not_scalar (lang : String) (v iv : JVal)
    (h : imageVal lang v = some iv) : scalarB iv = false := by
  cases v with
  | obj o =>
    rw [imageVal_obj] at h
    split at h
    next io hio => cases h; rfl
    next hio => cases h
  | arr l =>
    rw [imageVal_arr] at h
    split at h
    next il hil => cases h; rfl
    next hil => cases h
  | str s => cases h; rfl
  | int n => cases h; rfl
  | bool b => cases h; rfl
  | null => cases h; rfl

theorem imageObj_values (lang : String) (o io : Obj)
    (h : imageObj lang o = some io) :
    ∀ p ∈ io, scalarB p.2 = false := by
  induction o generalizing io with
  | nil =>
    cases h
    intro p hp
    cases hp
  | cons q rest ih =>
    obtain ⟨k, v⟩ := q
    rw [imageObj_cons] at h
    split at h
    next iv hiv =>
      split at h
      next irest hirest =>
        cases h
        intro p hp
        rcases List.mem_cons.mp hp with rfl | hmem
        · exact imageVal_not_scalar lang v iv hiv
        · exact ih irest hirest p hmem
      next => cases h
    next => cases h

theorem imageItems_length (lang : String) (items ims : List JVal)
    (h : imageItems lang items = some ims) : ims.length = items.length := by
  induction items generalizing ims with
  | nil => cases h; rfl
  | cons item rest ih =>
    cases item with
    | obj o =>
      rw [imageItems_cons_obj] at h
      split at h
      next io hio =>
        split at h
        next irest hirest => cases h; simp [ih irest hirest]
        next => cases h
      next => cases h
    | str s =>
      rw [imageItems_cons_str] at h
      split at h
      next irest hirest => cases h; simp [ih irest hirest]
      next => cases h
    | int n => cases h
    | bool b => cases h
    | null => cases h
    | arr l => cases h

theorem imageObj_lookup (lang : String) (o io : Obj) (k : String) (v : JVal)
    (hio : imageObj lang o = some io) (hl : lookup o k = some v) :
    ∃ iv, imageVal lang v = some iv ∧ lookup io k = some iv := by
  induction o generalizing io with
  | nil => simp [lookup] at hl
  | cons q rest ih =>
    obtain ⟨x, w⟩ := q
    rw [imageObj_cons] at hio
    split at hio
    next iw hiw =>
      split at hio
      next irest hirest =>
        cases hio
        by_cases hx : x = k
        · subst hx
          rw [lookup, if_pos rfl] at hl
          cases hl
          exact ⟨iw, hiw, by rw [lookup, if_pos rfl]⟩
        · rw [lookup, if_neg hx] at hl
          obtain ⟨iv, hiv, hlk⟩ := ih irest hirest hl
          exact ⟨iv, hiv, by rw [lookup, if_neg hx]; exact hlk⟩
      next => cases hio
    next => cases hio

theorem mergedOnceV_arr (lang : String) (items : List JVal) :
    mergedOnceV lang (.arr items) = mergedOnceA lang items := rfl

theorem mergedOnceV_obj (lang : String) (kvs : Obj)
    (h : ∀ p ∈ kvs, scalarB p.2 = false) :
    mergedOnceV lang (.obj kvs) = mergedOnceO lang kvs := by
  match kvs with
  | [] => rfl
  | [(l, w)] =>
    have hw := h (l, w) (by simp)
    cases w with
    | str s => simp [scalarB] at hw
    | obj o => rfl
    | arr a => rfl
    | int n => simp [scalarB] at hw
    | bool b => simp [scalarB] at hw
    | null => simp [scalarB] at hw
  | (k1, w1) :: (k2, w2) :: rest => cases w1 <;> rfl

end I18n

namespace I18n

theorem nodupV_arr (items : List JVal) : nodupV (.arr items) = nodupA items := rfl

theorem keysDistinctB_cons (k : String) (ks : List String) :
    keysDistinctB (k :: ks) = (!(ks.contains k) && keysDistinctB ks) := rfl

theorem nodupO_cons (k : String) (v : JVal) (rest : Obj) :
    nodupO ((k, v) :: rest) = (nodupV v && nodupO rest) := rfl

theorem nodupA_cons (v : JVal) (rest : List JVal) :
    nodupA (v :: rest) = (nodupV v && nodupA rest) := rfl

theorem setKey_head_self (l : String) (w v : JVal) (rest : Obj) :
    setKey ((l, w) :: rest) l v = (l, v) :: rest := by
  rw [setKey, if_pos rfl]

theorem mergePair_fresh_scalar (base : Obj) (key : String) (value : JVal)
    (lang fn : String) (b : Obj) (hs : scalarB value = true)
    (hbk : lookup base key = none)
    (hp : mergePair base key value lang fn = .ok b) :
    b = base ++ [(key, .obj [(lang, value)])] := by
  rw [mergePair_scalar base key value lang fn hs] at hp
  split at hp
  next leaf heq =>
    cases hp
    rw [hbk] at heq
    simp only [Option.getD_none] at heq
    injection heq with heq2
    subst heq2
    rw [setKey_absent base key _ hbk]
    rfl
  next heq => cases hp

mutual

theorem mergeNested_fresh (base inc : Obj) (lang fn : String) (out : Obj)
    (hn : nodupV (.obj inc) = true)
    (hd : ∀ k2, (lookup inc k2).isSome = true → lookup base k2 = none)
    (h : mergeNested base inc lang fn = .ok out) :
    ∃ im, imageObj lang inc = some im ∧ out = base ++ im := by
  match inc with
  | [] =>
    rw [mergeNested_nil] at h
    cases h
    exact ⟨[], rfl, by simp⟩
  | (key, value) :: rest =>
    rw [mergeNested_cons] at h
    rw [nodupV_obj, List.map_cons, keysDistinctB_cons, nodupO_cons] at hn
    simp only [Bool.and_eq_true, Bool.not_eq_true'] at hn
    obtain ⟨⟨hkmem, hkdrest⟩, hnv, hnorest⟩ := hn
    have hn_rest : nodupV (.obj rest) = true := by
      rw [nodupV_obj]
      simp [hkdrest, hnorest]
    have hbk : lookup base key = none :=
      hd key (by rw [lookup, if_pos rfl]; rfl)
    have hd' : ∀ (x : JVal) (k2 : String), (lookup rest k2).isSome = true →
        lookup (base ++ [(key, x)]) k2 = none := by
      intro x k2 hk2
      have hk2ne : k2 ≠ key := by
        intro hkk
        subst hkk
        have hmem := (lookup_isSome_mem rest k2).mp hk2
        rw [keyList] at hmem
        have hc : (List.map Prod.fst rest).contains k2 = true :=
          List.elem_iff.mpr hmem
        rw [hc] at hkmem
        cases hkmem
      have hbase : lookup base k2 = none :=
        hd k2 (by rw [lookup, if_neg (fun hh => hk2ne hh.symm)]; exact hk2)
      rw [lookup_append, hbase]
      simp only []
      rw [lookup, if_neg (fun hh : key = k2 => hk2ne hh.symm), lookup]
    split at h
    next e hp => cases h
    next b hp =>
      cases value with
      | obj o =>
        rw [mergePair_obj] at hp
        split at hp
        next sub heq =>
          split at hp
          next e hm => cases hp
          next merged hm =>
            cases hp
            rw [hbk] at heq
            simp only [Option.getD_none] at heq
            injection heq with heq2
            subst heq2
            obtain ⟨imo, himo, houto⟩ :=
              mergeNested_fresh [] o lang fn merged hnv (fun _ _ => rfl) hm
            have hmerged : merged = imo := by simpa using houto
            rw [setKey_absent base key _ hbk, hmerged] at h
            obtain ⟨imr, himr, houtr⟩ :=
              mergeNested_fresh (base ++ [(key, .obj imo)]) rest lang fn out
                hn_rest (hd' (.obj imo)) h
            refine ⟨(key, .obj imo) :: imr, ?_, ?_⟩
            · rw [imageObj_cons, imageVal_obj, himo, himr]
            · rw [houtr, List.append_assoc]
              rfl
        next heq => cases hp
      | arr items2 =>
        rw [mergePair_arr] at hp
        split at hp
        next dst heq =>
          split at hp
          next e hm => cases hp
          next merged hm =>
            cases hp
            rw [hbk] at heq
            simp only [Option.getD_none] at heq
            injection heq with heq2
            subst heq2
            simp only [List.nil_append, List.length_nil, Nat.sub_zero] at hm
            obtain ⟨ims, hims, himseq⟩ :=
              mergeItems_fresh items2 key 0 lang fn merged
                (by rw [← nodupV_arr]; exact hnv) hm
            rw [setKey_absent base key _ hbk, himseq] at h
            obtain ⟨imr, himr, houtr⟩ :=
              mergeNested_fresh (base ++ [(key, .arr ims)]) rest lang fn out
                hn_rest (hd' (.arr ims)) h
            refine ⟨(key, .arr ims) :: imr, ?_, ?_⟩
            · rw [imageObj_cons, imageVal_arr, hims, himr]
            · rw [houtr, List.append_assoc]
              rfl
        next heq => cases hp
      | str s =>
        have hb := mergePair_fresh_scalar base key (.str s) lang fn b rfl hbk hp
        subst hb
        obtain ⟨imr, himr, houtr⟩ :=
          mergeNested_fresh (base ++ [(key, .obj [(lang, .str s)])]) rest lang fn
            out hn_rest (hd' (.obj [(lang, .str s)])) h
        refine ⟨(key, .obj [(lang, .str s)]) :: imr, ?_, ?_⟩
        · rw [imageObj_cons, imageVal_scalar lang (.str s) rfl, himr]
        · rw [houtr, List.append_assoc]
          rfl
      | int n =>
        have hb := mergePair_fresh_scalar base key (.int n) lang fn b rfl hbk hp
        subst hb
        obtain ⟨imr, himr, houtr⟩ :=
          mergeNested_fresh (base ++ [(key, .obj [(lang, .int n)])]) rest lang fn
            out hn_rest (hd' (.obj [(lang, .int n)])) h
        refine ⟨(key, .obj [(lang, .int n)]) :: imr, ?_, ?_⟩
        · rw [imageObj_cons, imageVal_scalar lang (.int n) rfl, himr]
        · rw [houtr, List.append_assoc]
          rfl
      | bool bb =>
        have hb := mergePair_fresh_scalar base key (.bool bb) lang fn b rfl hbk hp
        subst hb
        obtain ⟨imr, himr, houtr⟩ :=
          mergeNested_fresh (base ++ [(key, .obj [(lang, .bool bb)])]) rest lang
            fn out hn_rest (hd' (.obj [(lang, .bool bb)])) h
        refine ⟨(key, .obj [(lang, .bool bb)]) :: imr, ?_, ?_⟩
        · rw [imageObj_cons, imageVal_scalar lang (.bool bb) rfl, himr]
        · rw [houtr, List.append_assoc]
          rfl
      | null =>
        have hb := mergePair_fresh_scalar base key .null lang fn b rfl hbk hp
        subst hb
        obtain ⟨imr, himr, houtr⟩ :=
          mergeNested_fresh (base ++ [(key, .obj [(lang, .null)])]) rest lang fn
            out hn_rest (hd' (.obj [(lang, .null)])) h
        refine ⟨(key, .obj [(lang, .null)]) :: imr, ?_, ?_⟩
        · rw [imageObj_cons, imageVal_scalar lang .null rfl, himr]
        · rw [houtr, List.append_assoc]
          rfl
termination_by (sizeOf inc, 0)

theorem mergeItems_fresh (items : List JVal) (k : String) (i : Nat)
    (lang fn : String) (out : List JVal) (hn : nodupA items = true)
    (h : mergeItems (List.replicate items.length (.obj [])) items k i lang fn
      = .ok out) :
    ∃ ims, imageItems lang items = some ims ∧ out = ims := by
  match items with
  | [] =>
    rw [List.length_nil, List.replicate_zero, mergeItems_nil_items] at h
    cases h
    exact ⟨[], rfl, rfl⟩
  | item :: rest =>
    rw [nodupA_cons] at hn
    simp only [Bool.and_eq_true] at hn
    rw [List.length_cons, List.replicate_succ] at h
    cases item with
    | obj o =>
      rw [mergeItems_cons_obj] at h
      split at h
      next e hm => cases h
      next m hm =>
        split at h
        next e ht => cases h
        next tail ht =>
          cases h
          obtain ⟨imo, himo, houto⟩ :=
            mergeNested_fresh [] o lang fn m hn.1 (fun _ _ => rfl)
              (by simpa [slotObj] using hm)
          have hmo : m = imo := by simpa using houto
          obtain ⟨imr, himr, houtr⟩ :=
            mergeItems_fresh rest k (i + 1) lang fn tail hn.2 ht
          refine ⟨.obj imo :: imr, ?_, ?_⟩
          · rw [imageItems_cons_obj, himo, himr]
          · rw [hmo, houtr]
    | str s =>
      rw [mergeItems_cons_str] at h
      split at h
      next e ht => cases h
      next tail ht =>
        cases h
        obtain ⟨imr, himr, houtr⟩ :=
          mergeItems_fresh rest k (i + 1) lang fn tail hn.2 ht
        refine ⟨.obj [(lang, .str s)] :: imr, ?_, ?_⟩
        · rw [imageItems_cons_str, himr]
        · rw [houtr]
          rfl
    | int n =>
      rw [mergeItems_cons_bad _ _ (.int n) rest k i lang fn rfl
        (fun _ h => JVal.noConfusion h)] at h
      cases h
    | bool bb =>
      rw [mergeItems_cons_bad _ _ (.bool bb) rest k i lang fn rfl
        (fun _ h => JVal.noConfusion h)] at h
      cases h
    | null =>
      rw [mergeItems_cons_bad _ _ .null rest k i lang fn rfl
        (fun _ h => JVal.noConfusion h)] at h
      cases h
    | arr l =>
      rw [mergeItems_cons_bad _ _ (.arr l) rest k i lang fn rfl
        (fun _ h => JVal.noConfusion h)] at h
      cases h
termination_by (sizeOf items, 0)

end

end I18n

namespace I18n

mutual

theorem mergeNested_image_fix (inc m : Obj) (lang fn : String)
    (hn : nodupV (.obj inc) = true)
    (hm : ∀ k v, lookup inc k = some v →
      ∃ iv, imageVal lang v = some iv ∧ lookup m k = some iv) :
    mergeNested m inc lang fn = .ok m := by
  match inc with
  | [] => exact mergeNested_nil m lang fn
  | (key, value) :: rest =>
    rw [nodupV_obj, List.map_cons, keysDistinctB_cons, nodupO_cons] at hn
    simp only [Bool.and_eq_true, Bool.not_eq_true'] at hn
    obtain ⟨⟨hkmem, hkdrest⟩, hnv, hnorest⟩ := hn
    obtain ⟨iv, hiv, hlk⟩ := hm key value (by rw [lookup, if_pos rfl])
    have hpair : mergePair m key value lang fn = .ok m := by
      cases value with
      | obj o =>
        rw [imageVal_obj] at hiv
        split at hiv
        next io hio =>
          cases hiv
          rw [mergePair_obj]
          have hg : (lookup m key).getD (.obj []) = .obj io := by rw [hlk]; rfl
          rw [hg]
          simp only []
          rw [mergeNested_image_fix o io lang fn hnv
            (fun k2 v2 hl2 => imageObj_lookup lang o io k2 v2 hio hl2)]
          simp only []
          rw [setKey_lookup_self m key (.obj io) hlk]
        next hio => cases hiv
      | arr items2 =>
        rw [imageVal_arr] at hiv
        split at hiv
        next il hil =>
          cases hiv
          rw [mergePair_arr]
          have hg : (lookup m key).getD (.arr []) = .arr il := by rw [hlk]; rfl
          rw [hg]
          simp only []
          have hlen : il ++ List.replicate (items2.length - il.length) (.obj [])
              = il := by
            rw [imageItems_length lang items2 il hil]
            simp
          rw [hlen]
          rw [mergeItems_image_fix items2 il key 0 lang fn
            (by rw [← nodupV_arr]; exact hnv) hil]
          simp only []
          rw [setKey_lookup_self m key (.arr il) hlk]
        next hil => cases hiv
      | str s =>
        rw [imageVal_scalar lang (.str s) rfl] at hiv
        cases hiv
        rw [mergePair_scalar m key (.str s) lang fn rfl]
        have hg : (lookup m key).getD (.obj []) = .obj [(lang, .str s)] := by
          rw [hlk]; rfl
        rw [hg]
        simp only []
        rw [setKey_head_self, setKey_lookup_self m key _ hlk]
      | int n =>
        rw [imageVal_scalar lang (.int n) rfl] at hiv
        cases hiv
        rw [mergePair_scalar m key (.int n) lang fn rfl]
        have hg : (lookup m key).getD (.obj []) = .obj [(lang, .int n)] := by
          rw [hlk]; rfl
        rw [hg]
        simp only []
        rw [setKey_head_self, setKey_lookup_self m key _ hlk]
      | bool bb =>
        rw [imageVal_scalar lang (.bool bb) rfl] at hiv
        cases hiv
        rw [mergePair_scalar m key (.bool bb) lang fn rfl]
        have hg : (lookup m key).getD (.obj []) = .obj [(lang, .bool bb)] := by
          rw [hlk]; rfl
        rw [hg]
        simp only []
        rw [setKey_head_self, setKey_lookup_self m key _ hlk]
      | null =>
        rw [imageVal_scalar lang .null rfl] at hiv
        cases hiv
        rw [mergePair_scalar m key .null lang fn rfl]
        have hg : (lookup m key).getD (.obj []) = .obj [(lang, .null)] := by
          rw [hlk]; rfl
        rw [hg]
        simp only []
        rw [setKey_head_self, setKey_lookup_self m key _ hlk]
    rw [mergeNested_cons, hpair]
    have hm_rest : ∀ k v, lookup rest k = some v →
        ∃ iv2, imageVal lang v = some iv2 ∧ lookup m k = some iv2 := by
      intro k2 v2 hl2
      have hne : key ≠ k2 := by
        intro hkk
        subst hkk
        have hmem := (lookup_isSome_mem rest key).mp (by rw [hl2]; rfl)
        rw [keyList] at hmem
        have hc : (List.map Prod.fst rest).contains key = true :=
          List.elem_iff.mpr hmem
        rw [hc] at hkmem
        cases hkmem
      exact hm k2 v2 (by rw [lookup, if_neg hne]; exact hl2)
    exact mergeNested_image_fix rest m lang fn
      (by rw [nodupV_obj]; simp [hkdrest, hnorest]) hm_rest
termination_by (sizeOf inc, 0)

theorem mergeItems_image_fix (items ims : List JVal) (k : String) (i : Nat)
    (lang fn : String) (hn : nodupA items = true)
    (him : imageItems lang items = some ims) :
    mergeItems ims items k i lang fn = .ok ims := by
  match items with
  | [] =>
    cases him
    exact mergeItems_nil_items [] k i lang fn
  | item :: rest =>
    rw [nodupA_cons] at hn
    simp only [Bool.and_eq_true] at hn
    cases item with
    | obj o =>
      rw [imageItems_cons_obj] at him
      split at him
      next io hio =>
        split at him
        next irest hirest =>
          cases him
          rw [mergeItems_cons_obj]
          have hso : slotObj (.obj io) = io := rfl
          rw [hso]
          rw [mergeNested_image_fix o io lang fn hn.1
            (fun k2 v2 hl2 => imageObj_lookup lang o io k2 v2 hio hl2)]
          rw [mergeItems_image_fix rest irest k (i + 1) lang fn hn.2 hirest]
        next => cases him
      next => cases him
    | str s =>
      rw [imageItems_cons_str] at him
      split at him
      next irest hirest =>
        cases him
        rw [mergeItems_cons_str]
        rw [mergeItems_image_fix rest irest k (i + 1) lang fn hn.2 hirest]
        have hss : setKey (slotObj (.obj [(lang, .str s)])) lang (.str s)
            = [(lang, .str s)] := by
          rw [slotObj]
          exact setKey_head_self lang (.str s) (.str s) []
        rw [hss]
      next => cases him
    | int n =>
      rw [imageItems_cons_bad lang (.int n) rest rfl
        (fun _ h => JVal.noConfusion h)] at him
      cases him
    | bool bb =>
      rw [imageItems_cons_bad lang (.bool bb) rest rfl
        (fun _ h => JVal.noConfusion h)] at him
      cases him
    | null =>
      rw [imageItems_cons_bad lang .null rest rfl
        (fun _ h => JVal.noConfusion h)] at him
      cases him
    | arr l =>
      rw [imageItems_cons_bad lang (.arr l) rest rfl
        (fun _ h => JVal.noConfusion h)] at him
      cases him
termination_by (sizeOf items, 0)

end

end I18n

namespace I18n

theorem validV_obj (kvs : Obj) : validV (.obj kvs) = validO kvs := rfl

theorem validV_arr (items : List JVal) : validV (.arr items) = validA items := rfl

theorem validO_cons (k : String) (v : JVal) (rest : Obj) :
    validO ((k, v) :: rest) = (validV v && validO rest) := rfl

theorem validA_cons (v : JVal) (rest : List JVal) :
    validA (v :: rest) = (validV v && validA rest) := rfl

theorem mergedOnceO_cons (lang k : String) (v : JVal) (rest : Obj) :
    mergedOnceO lang ((k, v) :: rest)
      = (mergedOnceV lang v && mergedOnceO lang rest) := rfl

theorem mergedOnceA_cons (lang : String) (v : JVal) (rest : List JVal) :
    mergedOnceA lang (v :: rest)
      = (mergedOnceV lang v && mergedOnceA lang rest) := rfl

theorem mergedOnceV_leaf (lang : String) (s : String) :
    mergedOnceV lang (.obj [(lang, .str s)]) = true := by
  have h : mergedOnceV lang (.obj [(lang, .str s)]) = (lang == lang) := rfl
  rw [h]
  exact beq_self_eq_true lang

mutual

theorem imageVal_mergedOnce (lang : String) (v iv : JVal)
    (hv : validV v = true) (him : imageVal lang v = some iv) :
    mergedOnceV lang iv = true := by
  cases v with
  | obj o =>
    rw [imageVal_obj] at him
    split at him
    next io hio =>
      cases him
      rw [mergedOnceV_obj lang io (imageObj_values lang o io hio)]
      exact imageObj_mergedOnce lang o io hv hio
    next => cases him
  | arr items =>
    rw [imageVal_arr] at him
    split at him
    next il hil =>
      cases him
      rw [mergedOnceV_arr]
      exact imageItems_mergedOnce lang items il hv hil
    next => cases him
  | str s =>
    cases him
    exact mergedOnceV_leaf lang s
  | int n => cases hv
  | bool b => cases hv
  | null => cases hv

theorem imageObj_mergedOnce (lang : String) (o io : Obj)
    (hv : validO o = true) (him : imageObj lang o = some io) :
    mergedOnceO lang io = true := by
  match o with
  | [] =>
    cases him
    rfl
  | (k, v) :: rest =>
    rw [validO_cons] at hv
    simp only [Bool.and_eq_true] at hv
    rw [imageObj_cons] at him
    split at him
    next iv hiv =>
      split at him
      next irest hirest =>
        cases him
        rw [mergedOnceO_cons]
        simp only [Bool.and_eq_true]
        exact ⟨imageVal_mergedOnce lang v iv hv.1 hiv,
          imageObj_mergedOnce lang rest irest hv.2 hirest⟩
      next => cases him
    next => cases him

theorem imageItems_mergedOnce (lang : String) (items ims : List JVal)
    (hv : validA items = true) (him : imageItems lang items = some ims) :
    mergedOnceA lang ims = true := by
  match items with
  | [] =>
    cases him
    rfl
  | item :: rest =>
    rw [validA_cons] at hv
    simp only [Bool.and_eq_true] at hv
    cases item with
    | obj o =>
      rw [imageItems_cons_obj] at him
      split at him
      next io hio =>
        split at him
        next irest hirest =>
          cases him
          rw [mergedOnceA_cons]
          simp only [Bool.and_eq_true]
          refine ⟨?_, imageItems_mergedOnce lang rest irest hv.2 hirest⟩
          rw [mergedOnceV_obj lang io (imageObj_values lang o io hio)]
          exact imageObj_mergedOnce lang o io hv.1 hio
        next => cases him
      next => cases him
    | str s =>
      rw [imageItems_cons_str] at him
      split at him
      next irest hirest =>
        cases him
        rw [mergedOnceA_cons]
        simp only [Bool.and_eq_true]
        exact ⟨mergedOnceV_leaf lang s,
          imageItems_mergedOnce lang rest irest hv.2 hirest⟩
      next => cases him
    | int n =>
      rw [imageItems_cons_bad lang (.int n) rest rfl
        (fun _ h => JVal.noConfusion h)] at him
      cases him
    | bool bb =>
      rw [imageItems_cons_bad lang (.bool bb) rest rfl
        (fun _ h => JVal.noConfusion h)] at him
      cases him
    | null =>
      rw [imageItems_cons_bad lang .null rest rfl
        (fun _ h => JVal.noConfusion h)] at him
      cases him
    | arr l =>
      rw [imageItems_cons_bad lang (.arr l) rest rfl
        (fun _ h => JVal.noConfusion h)] at him
      cases him

end

/-- C8: merging a validated single-language tree into a fresh empty
accumulator and then merging it again under the same language tag returns
the same tree unchanged, and every leaf map of that tree is exactly the
one-entry map of the tree's language. -/
theorem c8_idempotent (t : Obj) (lang fn : String) (m : Obj)
    (hval : validV (.obj t) = true) (hnd : nodupV (.obj t) = true)
    (h : mergeNested [] t lang fn = .ok m) :
    mergeNested m t lang fn = .ok m ∧ mergedOnceO lang m = true := by
  obtain ⟨im, him, hout⟩ :=
    mergeNested_fresh [] t lang fn m hnd (fun _ _ => rfl) h
  have hm : m = im := by simpa using hout
  constructor
  · apply mergeNested_image_fix t m lang fn hnd
    intro k v hkv
    obtain ⟨iv, hiv, hlk⟩ := imageObj_lookup lang t im k v him hkv
    exact ⟨iv, hiv, by rw [hm]; exact hlk⟩
  · rw [hm]
    exact imageObj_mergedOnce lang t im hval him

/-- C8 witness: a concrete two-key tree merged twice under language en. -/
theorem c8_witness :
    mergeNested [("greet", .obj [("en", .str "Hi")]),
                 ("items", .arr [.obj [("en", .str "a")]])]
      [("greet", .str "Hi"), ("items", .arr [.str "a"])] "en" "en.json" =
      .ok [("greet", .obj [("en", .str "Hi")]),
           ("items", .arr [.obj [("en", .str "a")]])] ∧
    mergedOnceO "en" [("greet", .obj [("en", .str "Hi")]),
                      ("items", .arr [.obj [("en", .str "a")]])] = true :=
  c8_idempotent [("greet", .str "Hi"), ("items", .arr [.str "a"])] "en" "en.json"
    [("greet", .obj [("en", .str "Hi")]), ("items", .arr [.obj [("en", .str "a")]])]
    (by decide) (by decide) rfl

end I18n

namespace I18n

/-- C5 counterexample: the merged key set is not the union of the files' key
sets. First, a single file with a string at greet produces the key set
consisting of its language tag at that path, while the file's tree has no
keys there. Second, even augmenting the union with language tags is wrong in
general: a file whose structural key equals another file's language tag is
silently overwritten, losing its keys. -/
theorem c5_counterexample :
    mergeFiles [] [("en", [("greet", .str "Hi")])] =
      .ok [("greet", .obj [("en", .str "Hi")])] ∧
    mkeys [("greet", .obj [("en", .str "Hi")])] [.key "greet"] = {"en"} ∧
    unionKeySets [("en", [("greet", .str "Hi")])] [.key "greet"] = ∅ ∧
    mkeys [("greet", .obj [("en", .str "Hi")])] [.key "greet"] ≠
      unionKeySets [("en", [("greet", .str "Hi")])] [.key "greet"] ∧
    mergeFiles [] [("ru", [("title", .obj [("en", .obj [("a", .str "x")])])]),
                   ("en", [("title", .str "Hi")])] =
      .ok [("title", .obj [("en", .str "Hi")])] ∧
    mkeys [("title", .obj [("en", .str "Hi")])] [.key "title", .key "en"] = ∅ ∧
    unionContribs [("ru", [("title", .obj [("en", .obj [("a", .str "x")])])]),
                   ("en", [("title", .str "Hi")])] [.key "title", .key "en"]
      = {"a"} ∧
    avoidV ["ru", "en"] (.obj [("title", .obj [("en", .obj [("a", .str "x")])])])
      = false :=
  ⟨rfl, by decide, by decide, by decide, rfl, by decide, by decide, rfl⟩

theorem lookup_eq_none_of_not_mem (o : Obj) (k : String)
    (h : ¬ k ∈ keyList o) : lookup o k = none := by
  cases hl : lookup o k with
  | none => rfl
  | some v =>
    exact absurd ((lookup_isSome_mem o k).mp (by rw [hl]; rfl)) h

theorem objOf_slot (d : JVal) (hd : isObjB d = true) :
    JVal.obj (slotObj d) = d := by
  cases d with
  | obj o => rfl
  | str s => simp [isObjB] at hd
  | int n => simp [isObjB] at hd
  | bool b => simp [isObjB] at hd
  | null => simp [isObjB] at hd
  | arr l => simp [isObjB] at hd

theorem getSub_scalar_cons (v : JVal) (hs : scalarB v = true) (e : PathElem)
    (p : Path) : getSub v (e :: p) = none := by
  cases v with
  | str s => cases e <;> rfl
  | int n => cases e <;> rfl
  | bool b => cases e <;> rfl
  | null => cases e <;> rfl
  | obj o => simp [scalarB] at hs
  | arr l => simp [scalarB] at hs

theorem mkeys_def (o : Obj) (p : Path) : mkeys o p = mkeysV (.obj o) p := rfl

theorem mkeysV_obj_nilp (kvs : Obj) : mkeysV (.obj kvs) [] = keysF kvs := rfl

theorem mkeysV_obj_key (kvs : Obj) (k : String) (p : Path) :
    mkeysV (.obj kvs) (.key k :: p) =
      (match lookup kvs k with
       | some v => mkeysV v p
       | none => ∅) := by
  cases hl : lookup kvs k with
  | some v =>
    show (match getSub (.obj kvs) (.key k :: p) with
          | some (.obj kvs2) => keysF kvs2
          | _ => ∅) = mkeysV v p
    rw [getSub]
    rw [hl]
    rfl
  | none =>
    show (match getSub (.obj kvs) (.key k :: p) with
          | some (.obj kvs2) => keysF kvs2
          | _ => ∅) = ∅
    rw [getSub]
    rw [hl]

theorem mkeysV_obj_idx (kvs : Obj) (j : Nat) (p : Path) :
    mkeysV (.obj kvs) (.idx j :: p) = ∅ := rfl

theorem mkeysV_arr_nilp (l : List JVal) : mkeysV (.arr l) [] = ∅ := rfl

theorem mkeysV_arr_key (l : List JVal) (k : String) (p : Path) :
    mkeysV (.arr l) (.key k :: p) = ∅ := rfl

theorem mkeysV_arr_idx (l : List JVal) (j : Nat) (p : Path) :
    mkeysV (.arr l) (.idx j :: p) = elemK l j p := by
  cases hl : l[j]? with
  | some v =>
    show (match getSub (.arr l) (.idx j :: p) with
          | some (.obj kvs2) => keysF kvs2
          | _ => ∅) = elemK l j p
    rw [getSub, hl, elemK, hl]
    rfl
  | none =>
    show (match getSub (.arr l) (.idx j :: p) with
          | some (.obj kvs2) => keysF kvs2
          | _ => ∅) = elemK l j p
    rw [getSub, hl, elemK, hl]

theorem mkeysV_obj_nil_obj (p : Path) : mkeysV (.obj []) p = ∅ := by
  cases p with
  | nil => rfl
  | cons e rest =>
    cases e with
    | key k => rw [mkeysV_obj_key]; rw [lookup]
    | idx j => rfl

theorem mkeysV_scalar (v : JVal) (p : Path) (hs : scalarB v = true) :
    mkeysV v p = ∅ := by
  cases p with
  | nil =>
    cases v with
    | str s => rfl
    | int n => rfl
    | bool b => rfl
    | null => rfl
    | obj o => simp [scalarB] at hs
    | arr l => simp [scalarB] at hs
  | cons e rest =>
    show (match getSub v (e :: rest) with
          | some (.obj kvs2) => keysF kvs2
          | _ => ∅) = ∅
    rw [getSub_scalar_cons v hs]

theorem contribV_obj_nilp (lang : String) (kvs : Obj) :
    contribV lang (.obj kvs) [] = keysF kvs := rfl

theorem contribV_obj_key (lang : String) (kvs : Obj) (k : String) (p : Path) :
    contribV lang (.obj kvs) (.key k :: p) =
      (match lookup kvs k with
       | some v => contribV lang v p
       | none => ∅) := by
  cases hl : lookup kvs k with
  | some v =>
    show (match getSub (.obj kvs) (.key k :: p) with
          | some (.obj kvs2) => keysF kvs2
          | some (.arr _) => ∅
          | some _ => {lang}
          | none => ∅) = contribV lang v p
    rw [getSub, hl]
    rfl
  | none =>
    show (match getSub (.obj kvs) (.key k :: p) with
          | some (.obj kvs2) => keysF kvs2
          | some (.arr _) => ∅
          | some _ => {lang}
          | none => ∅) = ∅
    rw [getSub, hl]

theorem contribV_obj_idx (lang : String) (kvs : Obj) (j : Nat) (p : Path) :
    contribV lang (.obj kvs) (.idx j :: p) = ∅ := rfl

theorem contribV_arr_nilp (lang : String) (l : List JVal) :
    contribV lang (.arr l) [] = ∅ := rfl

theorem contribV_arr_key (lang : String) (l : List JVal) (k : String) (p : Path) :
    contribV lang (.arr l) (.key k :: p) = ∅ := rfl

theorem contribV_arr_idx (lang : String) (l : List JVal) (j : Nat) (p : Path) :
    contribV lang (.arr l) (.idx j :: p) = itemContrib lang l j p := by
  cases hl : l[j]? with
  | some v =>
    show (match getSub (.arr l) (.idx j :: p) with
          | some (.obj kvs2) => keysF kvs2
          | some (.arr _) => ∅
          | some _ => {lang}
          | none => ∅) = itemContrib lang l j p
    rw [getSub, hl, itemContrib, hl]
    rfl
  | none =>
    show (match getSub (.arr l) (.idx j :: p) with
          | some (.obj kvs2) => keysF kvs2
          | some (.arr _) => ∅
          | some _ => {lang}
          | none => ∅) = itemContrib lang l j p
    rw [getSub, hl, itemContrib, hl]

theorem contribV_scalar_nil (lang : String) (v : JVal) (hs : scalarB v = true) :
    contribV lang v [] = {lang} := by
  cases v with
  | str s => rfl
  | int n => rfl
  | bool b => rfl
  | null => rfl
  | obj o => simp [scalarB] at hs
  | arr l => simp [scalarB] at hs

theorem contribV_scalar_cons (lang : String) (v : JVal) (e : PathElem) (p : Path)
    (hs : scalarB v = true) : contribV lang v (e :: p) = ∅ := by
  show (match getSub v (e :: p) with
        | some (.obj kvs2) => keysF kvs2
        | some (.arr _) => ∅
        | some _ => {lang}
        | none => ∅) = ∅
  rw [getSub_scalar_cons v hs]

theorem contribV_obj_nil_tree (lang : String) (p : Path) :
    contribV lang (.obj []) p = ∅ := by
  cases p with
  | nil => rfl
  | cons e rest =>
    cases e with
    | key k => rw [contribV_obj_key]; rw [lookup]
    | idx j => rfl

theorem contribV_obj_cons (lang k : String) (v : JVal) (rest : Obj) (p : Path)
    (hfresh : lookup rest k = none) :
    contribV lang (.obj ((k, v) :: rest)) p =
      pairContrib lang k v p ∪ contribV lang (.obj rest) p := by
  cases p with
  | nil =>
    rw [contribV_obj_nilp, contribV_obj_nilp, pairContrib]
    rw [keysF, keyList, List.map_cons, List.toFinset_cons]
    rw [Finset.insert_eq]
    rfl
  | cons e p' =>
    cases e with
    | key k' =>
      rw [contribV_obj_key, pairContrib]
      by_cases hk : k' = k
      · subst hk
        rw [if_pos rfl, lookup, if_pos rfl, contribV_obj_key, hfresh]
        simp
      · rw [if_neg hk, lookup, if_neg (fun hh => hk hh.symm), contribV_obj_key]
        cases hl : lookup rest k' <;> simp
    | idx j =>
      rw [contribV_obj_idx, contribV_obj_idx, pairContrib]
      simp

theorem elemK_nilp (j : Nat) (p : Path) : elemK [] j p = ∅ := by
  rw [elemK]
  simp

theorem elemK_zero (x : JVal) (xs : List JVal) (p : Path) :
    elemK (x :: xs) 0 p = mkeysV x p := by
  rw [elemK, List.getElem?_cons_zero]

theorem elemK_succ (x : JVal) (xs : List JVal) (j : Nat) (p : Path) :
    elemK (x :: xs) (j + 1) p = elemK xs j p := by
  rw [elemK, List.getElem?_cons_succ, elemK]

theorem itemContrib_nilp (lang : String) (j : Nat) (p : Path) :
    itemContrib lang [] j p = ∅ := by
  rw [itemContrib]
  simp

theorem itemContrib_zero (lang : String) (x : JVal) (xs : List JVal) (p : Path) :
    itemContrib lang (x :: xs) 0 p = contribV lang x p := by
  rw [itemContrib, List.getElem?_cons_zero]

theorem itemContrib_succ (lang : String) (x : JVal) (xs : List JVal) (j : Nat)
    (p : Path) : itemContrib lang (x :: xs) (j + 1) p = itemContrib lang xs j p := by
  rw [itemContrib, List.getElem?_cons_succ, itemContrib]

theorem elemK_grow (dst : List JVal) (n j : Nat) (p : Path) :
    elemK (dst ++ List.replicate n (.obj [])) j p = elemK dst j p := by
  rw [elemK, elemK, List.getElem?_append]
  by_cases hj : j < dst.length
  · rw [if_pos hj]
  · rw [if_neg hj]
    have h1 : dst[j]? = none := List.getElem?_eq_none (by omega)
    rw [h1, List.getElem?_replicate]
    by_cases h2 : j - dst.length < n
    · rw [if_pos h2]
      exact mkeysV_obj_nil_obj p
    · rw [if_neg h2]

theorem unionContribs_nilp (p : Path) : unionContribs [] p = ∅ := rfl

theorem unionContribs_cons (f : String × Obj) (files : List (String × Obj))
    (p : Path) :
    unionContribs (f :: files) p =
      contribV f.1 (.obj f.2) p ∪ unionContribs files p := rfl

end I18n

namespace I18n

theorem mkeys_key_of_getD_obj (base : Obj) (k : String) (leaf : Obj) (p' : Path)
    (heq : (lookup base k).getD (.obj []) = .obj leaf) :
    mkeys base (.key k :: p') = mkeysV (.obj leaf) p' := by
  rw [mkeys_def, mkeysV_obj_key]
  cases hl : lookup base k with
  | some w =>
    rw [hl] at heq
    simp only [Option.getD_some] at heq
    subst heq
    rfl
  | none =>
    rw [hl] at heq
    simp only [Option.getD_none] at heq
    injection heq with heq2
    subst heq2
    exact (mkeysV_obj_nil_obj p').symm

theorem mkeys_key_of_getD_arr (base : Obj) (k : String) (dst : List JVal)
    (p' : Path) (heq : (lookup base k).getD (.arr []) = .arr dst) :
    mkeys base (.key k :: p') = mkeysV (.arr dst) p' := by
  rw [mkeys_def, mkeysV_obj_key]
  cases hl : lookup base k with
  | some w =>
    rw [hl] at heq
    simp only [Option.getD_some] at heq
    subst heq
    rfl
  | none =>
    rw [hl] at heq
    simp only [Option.getD_none] at heq
    injection heq with heq2
    subst heq2
    cases p' with
    | nil => rfl
    | cons e p2 =>
      cases e with
      | key k2 => rfl
      | idx j =>
        rw [mkeysV_arr_idx, elemK_nilp]

theorem mkeys_setKey_hit (base : Obj) (k : String) (x : JVal) (p' : Path) :
    mkeys (setKey base k x) (.key k :: p') = mkeysV x p' := by
  rw [mkeys_def, mkeysV_obj_key, lookup_setKey, if_pos rfl]

theorem mkeys_setKey_other (base : Obj) (k : String) (x : JVal) (k' : String)
    (p' : Path) (hk : ¬ k = k') :
    mkeys (setKey base k x) (.key k' :: p') = mkeys base (.key k' :: p') := by
  rw [mkeys_def, mkeys_def, mkeysV_obj_key, mkeysV_obj_key, lookup_setKey,
    if_neg hk]

theorem mkeys_root_setKey (base : Obj) (k : String) (x : JVal) :
    mkeys (setKey base k x) [] = mkeys base [] ∪ {k} := by
  rw [mkeys_def, mkeys_def, mkeysV_obj_nilp, mkeysV_obj_nilp, keysF_setKey,
    Finset.insert_eq, Finset.union_comm]

theorem mkeys_idx (o : Obj) (j : Nat) (p : Path) :
    mkeys o (.idx j :: p) = ∅ := by
  rw [mkeys_def, mkeysV_obj_idx]

theorem leafWrite_keys (L : List String) (leaf : Obj) (lang : String) (v : JVal)
    (p' : Path) (hleaf : accInvO L leaf = true) (hlang : L.contains lang = true)
    (hs : scalarB v = true) :
    mkeysV (.obj (setKey leaf lang v)) p' =
      mkeysV (.obj leaf) p' ∪ contribV lang v p' := by
  cases p' with
  | nil =>
    rw [mkeysV_obj_nilp, mkeysV_obj_nilp, keysF_setKey,
      contribV_scalar_nil lang v hs, Finset.insert_eq, Finset.union_comm]
  | cons e p2 =>
    cases e with
    | key l =>
      rw [mkeysV_obj_key, mkeysV_obj_key, lookup_setKey,
        contribV_scalar_cons lang v _ _ hs]
      by_cases hl : lang = l
      · subst hl
        rw [if_pos rfl]
        cases hw : lookup leaf lang with
        | none =>
          simp only []
          rw [mkeysV_scalar v p2 hs]
          simp
        | some w =>
          have hws := accInv_lookup_lang L leaf lang w hleaf hlang hw
          simp only []
          rw [mkeysV_scalar v p2 hs, mkeysV_scalar w p2 hws]
          simp
      · rw [if_neg hl]
        simp
    | idx j =>
      rw [mkeysV_obj_idx, mkeysV_obj_idx, contribV_scalar_cons lang v _ _ hs]
      simp

end I18n

namespace I18n

theorem keys_mergePair_leaf (L : List String) (base : Obj) (k : String)
    (value : JVal) (lang fn : String) (out : Obj)
    (hb : accInvO L base = true) (hlang : L.contains lang = true)
    (hs : scalarB value = true)
    (h : mergePair base k value lang fn = .ok out) :
    ∀ p, mkeys out p = mkeys base p ∪ pairContrib lang k value p := by
  rw [mergePair_scalar base k value lang fn hs] at h
  split at h
  next leaf heq =>
    cases h
    intro p
    have hleaf := accInv_getD_obj L base k leaf hb heq
    cases p with
    | nil => rw [mkeys_root_setKey, pairContrib]
    | cons e p' =>
      cases e with
      | key k' =>
        by_cases hk : k' = k
        · subst hk
          rw [mkeys_setKey_hit, mkeys_key_of_getD_obj base k' leaf p' heq,
            pairContrib, if_pos rfl]
          exact leafWrite_keys L leaf lang value p' hleaf hlang hs
        · rw [mkeys_setKey_other base k _ k' p' (fun hh => hk hh.symm),
            pairContrib, if_neg hk]
          simp
      | idx j =>
        rw [mkeys_idx, mkeys_idx, pairContrib]
        simp
  next heq => cases h

mutual

theorem keys_mergeNested (L : List String) (base inc : Obj) (lang fn : String)
    (out : Obj) (hb : accInvO L base = true) (hlang : L.contains lang = true)
    (hav : avoidO L inc = true) (hn : nodupV (.obj inc) = true)
    (h : mergeNested base inc lang fn = .ok out) :
    ∀ p, mkeys out p = mkeys base p ∪ contribV lang (.obj inc) p := by
  match inc with
  | [] =>
    rw [mergeNested_nil] at h
    cases h
    intro p
    rw [contribV_obj_nil_tree]
    simp
  | (key, value) :: rest =>
    rw [mergeNested_cons] at h
    rw [nodupV_obj, List.map_cons, keysDistinctB_cons, nodupO_cons] at hn
    simp only [Bool.and_eq_true, Bool.not_eq_true'] at hn
    obtain ⟨⟨hkmem, hkdrest⟩, hnv, hnorest⟩ := hn
    rw [avoidO] at hav
    simp only [Bool.and_eq_true, Bool.not_eq_true'] at hav
    obtain ⟨⟨hkL, havv⟩, havrest⟩ := hav
    split at h
    next e hp => cases h
    next b hp =>
      have hfresh : lookup rest key = none := by
        apply lookup_eq_none_of_not_mem
        intro hmem
        rw [keyList] at hmem
        have hc : (List.map Prod.fst rest).contains key = true :=
          List.elem_iff.mpr hmem
        rw [hc] at hkmem
        cases hkmem
      have hbinv := accInv_mergePair L base key value lang fn b hb hkL havv hp
      have hrecP := keys_mergePair L base key value lang fn b hb hlang hkL
        havv hnv hp
      have hrecR := keys_mergeNested L b rest lang fn out hbinv hlang havrest
        (by rw [nodupV_obj]; simp [hkdrest, hnorest]) h
      intro p
      rw [contribV_obj_cons lang key value rest p hfresh]
      rw [hrecR p, hrecP p, Finset.union_assoc]
termination_by (sizeOf inc, 0)

theorem keys_mergePair (L : List String) (base : Obj) (k : String)
    (value : JVal) (lang fn : String) (out : Obj)
    (hb : accInvO L base = true) (hlang : L.contains lang = true)
    (hkL : L.contains k = false) (hav : avoidV L value = true)
    (hn : nodupV value = true) (h : mergePair base k value lang fn = .ok out) :
    ∀ p, mkeys out p = mkeys base p ∪ pairContrib lang k value p := by
  cases value with
  | obj o =>
    rw [mergePair_obj] at h
    split at h
    next sub heq =>
      split at h
      next e hm => cases h
      next merged hm =>
        cases h
        intro p
        have hsub := accInv_getD_obj L base k sub hb heq
        have hrec := keys_mergeNested L sub o lang fn merged hsub hlang
          (by rw [← avoidV_obj]; exact hav) hn hm
        cases p with
        | nil => rw [mkeys_root_setKey, pairContrib]
        | cons e p' =>
          cases e with
          | key k' =>
            by_cases hk : k' = k
            · subst hk
              rw [mkeys_setKey_hit, mkeys_key_of_getD_obj base k' sub p' heq,
                pairContrib, if_pos rfl]
              have hthis := hrec p'
              rw [mkeys_def, mkeys_def] at hthis
              exact hthis
            · rw [mkeys_setKey_other base k _ k' p' (fun hh => hk hh.symm),
                pairContrib, if_neg hk]
              simp
          | idx j =>
            rw [mkeys_idx, mkeys_idx, pairContrib]
            simp
    next heq => cases h
  | arr items =>
    rw [mergePair_arr] at h
    split at h
    next dst heq =>
      split at h
      next e hm => cases h
      next merged hm =>
        cases h
        intro p
        have hdst := accInv_getD_arr L base k dst hb heq
        have hgrown := accInvA_append L dst
          (List.replicate (items.length - dst.length) (.obj [])) hdst
          (accInvA_replicate L (items.length - dst.length))
        have hlen2 : items.length ≤
            (dst ++ List.replicate (items.length - dst.length)
              (JVal.obj [])).length := by
          rw [List.length_append, List.length_replicate]
          omega
        have hrec := keys_mergeItems L
          (dst ++ List.replicate (items.length - dst.length) (.obj []))
          items k 0 lang fn merged hgrown hlang
          (by rw [← avoidV_arr]; exact hav) hn hlen2 hm
        cases p with
        | nil => rw [mkeys_root_setKey, pairContrib]
        | cons e p' =>
          cases e with
          | key k' =>
            by_cases hk : k' = k
            · subst hk
              rw [mkeys_setKey_hit, mkeys_key_of_getD_arr base k' dst p' heq,
                pairContrib, if_pos rfl]
              cases p' with
              | nil =>
                rw [mkeysV_arr_nilp, mkeysV_arr_nilp, contribV_arr_nilp]
                simp
              | cons e2 p2 =>
                cases e2 with
                | key k2 =>
                  rw [mkeysV_arr_key, mkeysV_arr_key, contribV_arr_key]
                  simp
                | idx j =>
                  rw [mkeysV_arr_idx, mkeysV_arr_idx, contribV_arr_idx]
                  have hthis := hrec j p2
                  rw [elemK_grow dst (items.length - dst.length) j p2] at hthis
                  exact hthis
            · rw [mkeys_setKey_other base k _ k' p' (fun hh => hk hh.symm),
                pairContrib, if_neg hk]
              simp
          | idx j =>
            rw [mkeys_idx, mkeys_idx, pairContrib]
            simp
    next heq => cases h
  | str s =>
    exact keys_mergePair_leaf L base k (.str s) lang fn out hb hlang rfl h
  | int n =>
    exact keys_mergePair_leaf L base k (.int n) lang fn out hb hlang rfl h
  | bool bb =>
    exact keys_mergePair_leaf L base k (.bool bb) lang fn out hb hlang rfl h
  | null =>
    exact keys_mergePair_leaf L base k .null lang fn out hb hlang rfl h
termination_by (sizeOf value, 1)

theorem keys_mergeItems (L : List String) (dst items : List JVal) (k : String)
    (i : Nat) (lang fn : String) (out : List JVal)
    (hd : accInvA L dst = true) (hlang : L.contains lang = true)
    (hav : avoidA L items = true) (hn : nodupA items = true)
    (hlen : items.length ≤ dst.length)
    (h : mergeItems dst items k i lang fn = .ok out) :
    ∀ j p, elemK out j p = elemK dst j p ∪ itemContrib lang items j p := by
  match dst, items with
  | ds, [] =>
    rw [mergeItems_nil_items] at h
    cases h
    intro j p
    rw [itemContrib_nilp]
    simp
  | [], it :: rest =>
    exact absurd hlen (by simp)
  | d :: ds, item :: rest =>
    rw [accInvA] at hd
    rw [avoidA] at hav
    rw [nodupA_cons] at hn
    simp only [Bool.and_eq_true] at hd hav hn
    have hlen2 : rest.length ≤ ds.length := by
      simp only [List.length_cons] at hlen
      omega
    have hslot := slotObj_accInv L d hd.1.1 hd.1.2
    cases item with
    | obj o =>
      rw [mergeItems_cons_obj] at h
      split at h
      next e hm => cases h
      next m hm =>
        split at h
        next e ht => cases h
        next tail ht =>
          cases h
          intro j p
          have hrecT := keys_mergeItems L ds rest k (i + 1) lang fn tail hd.2
            hlang hav.2 hn.2 hlen2 ht
          cases j with
          | zero =>
            rw [elemK_zero, elemK_zero, itemContrib_zero]
            have hrecN := keys_mergeNested L (slotObj d) o lang fn m hslot hlang
              (by rw [← avoidV_obj]; exact hav.1) hn.1 hm
            have hthis := hrecN p
            rw [mkeys_def, mkeys_def, objOf_slot d hd.1.1] at hthis
            exact hthis
          | succ j' =>
            rw [elemK_succ, elemK_succ, itemContrib_succ]
            exact hrecT j' p
    | str s =>
      rw [mergeItems_cons_str] at h
      split at h
      next e ht => cases h
      next tail ht =>
        cases h
        intro j p
        have hrecT := keys_mergeItems L ds rest k (i + 1) lang fn tail hd.2
          hlang hav.2 hn.2 hlen2 ht
        cases j with
        | zero =>
          rw [elemK_zero, elemK_zero, itemContrib_zero]
          have hthis := leafWrite_keys L (slotObj d) lang (.str s) p hslot
            hlang rfl
          rw [objOf_slot d hd.1.1] at hthis
          exact hthis
        | succ j' =>
          rw [elemK_succ, elemK_succ, itemContrib_succ]
          exact hrecT j' p
    | int n =>
      rw [mergeItems_cons_bad d ds (.int n) rest k i lang fn rfl
        (fun _ h => JVal.noConfusion h)] at h
      cases h
    | bool bb =>
      rw [mergeItems_cons_bad d ds (.bool bb) rest k i lang fn rfl
        (fun _ h => JVal.noConfusion h)] at h
      cases h
    | null =>
      rw [mergeItems_cons_bad d ds .null rest k i lang fn rfl
        (fun _ h => JVal.noConfusion h)] at h
      cases h
    | arr l =>
      rw [mergeItems_cons_bad d ds (.arr l) rest k i lang fn rfl
        (fun _ h => JVal.noConfusion h)] at h
      cases h
termination_by (sizeOf items, 0)

end

end I18n

namespace I18n

theorem mergeFiles_keys (L : List String) (files : List (String × Obj))
    (acc out : Obj) (hacc : accInvO L acc = true)
    (hf : ∀ f ∈ files, f.1 ∈ L ∧ nodupV (.obj f.2) = true ∧
          avoidV L (.obj f.2) = true)
    (h : mergeFiles acc files = .ok out) :
    ∀ p, mkeys out p = mkeys acc p ∪ unionContribs files p := by
  induction files generalizing acc with
  | nil =>
    rw [mergeFiles_nil] at h
    cases h
    intro p
    rw [unionContribs_nilp]
    simp
  | cons f rest ih =>
    obtain ⟨lang, tree⟩ := f
    rw [mergeFiles_cons] at h
    split at h
    next e hm => cases h
    next acc2 hm =>
      obtain ⟨hmemL, hnd, hvd⟩ := hf (lang, tree) (List.mem_cons_self _ _)
      have hlang : L.contains lang = true := List.elem_iff.mpr hmemL
      have hstep := keys_mergeNested L acc tree lang lang acc2 hacc hlang
        (by rw [← avoidV_obj]; exact hvd) hnd hm
      have hinv2 := accInv_mergeNested L acc tree lang lang acc2 hacc
        (by rw [← avoidV_obj]; exact hvd) hm
      have hrest := ih acc2 hinv2 (fun g hg => hf g (List.mem_cons_of_mem _ hg)) h
      intro p
      rw [unionContribs_cons, hrest p, hstep p, Finset.union_assoc]

/-- C5 amended: for every collection of input trees with distinct keys at
each mapping level (true of any parsed dict) and whose structural keys avoid
every contributing language tag, a successful merge from an empty
accumulator realises, at every path, exactly the union over files of the
keys of their mappings at that path together with the language tags of the
files contributing a leaf at that path. The two extra provisos are forced by
the counterexample: leaf maps inject language tags as keys, and a structural
key equal to a later language tag is silently overwritten. -/
theorem c5_amended (files : List (String × Obj)) (out : Obj) (p : Path)
    (hf : ∀ f ∈ files, validV (.obj f.2) = true ∧ nodupV (.obj f.2) = true ∧
          avoidV (files.map Prod.fst) (.obj f.2) = true)
    (h : mergeFiles [] files = .ok out) :
    mkeys out p = unionContribs files p := by
  have hmain := mergeFiles_keys (files.map Prod.fst) files [] out rfl
    (fun f hfm =>
      ⟨List.mem_map_of_mem Prod.fst hfm, (hf f hfm).2.1, (hf f hfm).2.2⟩) h p
  rw [hmain, mkeys_def, mkeysV_obj_nil_obj]
  simp

/-- C5 witness: two concrete files; at the path greet the merged key set is
the two language tags, which is what the two string leaves contribute. -/
theorem c5_witness :
    mkeys [("greet", .obj [("en", .str "Hi"), ("ru", .str "Привет")]),
           ("items", .arr [.obj [("en", .str "a")]])] [.key "greet"] =
      unionContribs
        [("en", [("greet", .str "Hi"), ("items", .arr [.str "a"])]),
         ("ru", [("greet", .str "Привет")])] [.key "greet"] :=
  c5_amended
    [("en", [("greet", .str "Hi"), ("items", .arr [.str "a"])]),
     ("ru", [("greet", .str "Привет")])]
    [("greet", .obj [("en", .str "Hi"), ("ru", .str "Привет")]),
     ("items", .arr [.obj [("en", .str "a")]])]
    [.key "greet"] (by decide) rfl

end I18n
